import Mathlib

/-!
Verification of the `ship-package` archive assembly subsystem.

The Go sources are embedded shallowly: strings become `List Char`, byte
slices become `List Nat`, the gzip layer is elided (a tarball is its list
of entries), and the md5 digest is an opaque parameter of the functions
that use it.  The functions of Go's `path` package (`Clean`, `Dir`,
`Base`), of `kr/text` (`Wrap`, `Indent`) and of the repository
(`deb.go`, `rpm.go`, the virtual file `tree`) are translated function by
function.
-/

set_option maxRecDepth 8000

namespace ShipPkg

/-- Strings as lists of characters (Go `string`, ASCII oriented). -/
abbrev Str := List Char

/-- Bytes of an ASCII string (Go `[]byte(s)`). -/
def strBytes (s : Str) : List Nat := s.map Char.toNat

/-- Go `s < t` on strings: lexicographic order, byte-wise. -/
def strLt : Str → Str → Bool
  | [], [] => false
  | [], _ :: _ => true
  | _ :: _, [] => false
  | a :: as, b :: bs => if a < b then true else if b < a then false else strLt as bs

/-! ## Go `path` package

`path.Clean` is implemented from its documented rewriting rules (collapse
multiple slashes, drop `.` elements, resolve `..` against a preceding
element, drop `..` at a rooted top), which the Go lazybuf implementation
realises.  `path.Dir` and `path.Base` follow the Go sources directly. -/

/-- One component survives cleaning when it is neither empty nor `.`. -/
def keepComp (c : Str) : Bool := decide (c ≠ [] ∧ c ≠ ['.'])

/-- Split on a separator character, keeping empty components
(Go `strings.Split` with a one-character separator). -/
def splitOnChar (sep : Char) : Str → List Str
  | [] => [[]]
  | c :: cs =>
    if c = sep then [] :: splitOnChar sep cs
    else (c :: (splitOnChar sep cs).headD []) :: (splitOnChar sep cs).tail

/-- The path elements of `p`: slash-separated pieces, empty and `.` pieces
dropped. -/
def components (p : Str) : List Str := (splitOnChar '/' p).filter keepComp

/-- Does the path start with a slash (Go `path[0] == '/'`). -/
def isRooted (p : Str) : Bool :=
  match p with
  | c :: _ => c = '/'
  | [] => false

/-- One step of `..` resolution over the stack of kept components
(stack head = deepest element): a `..` is dropped at a rooted top,
backtracks over a real element, and accumulates after another `..`. -/
def ddStep (rooted : Bool) (st : List Str) (c : Str) : List Str :=
  if c = ['.', '.'] then
    if st = [] then (if rooted then [] else [c])
    else if st.headD [] = ['.', '.'] then c :: st else st.tail
  else c :: st

/-- Resolve all `..` elements left to right. -/
def elimDD (rooted : Bool) (cs : List Str) : List Str := cs.foldl (ddStep rooted) []

/-- Join components with single slashes. -/
def joinSlash : List Str → Str
  | [] => []
  | [c] => c
  | c :: c2 :: cs => c ++ '/' :: joinSlash (c2 :: cs)

/-- The cleaned path without the root slash: surviving components joined. -/
def cleanBody (p : Str) : Str := joinSlash ((elimDD (isRooted p) (components p)).reverse)

/-- The cleaned path before the final empty-string check. -/
def cleanOut (p : Str) : Str := if isRooted p then '/' :: cleanBody p else cleanBody p

/-- Go `path.Clean`: empty input and empty result both clean to `.`. -/
def clean (p : Str) : Str :=
  if p = [] then ['.'] else if cleanOut p = [] then ['.'] else cleanOut p

/-- Everything up to and including the last slash of `p` (empty when `p`
has no slash); Go `path.Split`'s dir half. -/
def dirPart (p : Str) : Str := (p.reverse.dropWhile (fun c => c ≠ '/')).reverse

/-- Go `path.Dir`. -/
def dir (p : Str) : Str := clean (dirPart p)

/-- Go `path.Base`. -/
def base (p : Str) : Str :=
  if p = [] then ['.']
  else
    let q := (p.reverse.dropWhile (fun c => c = '/')).reverse
    if q = [] then ['/']
    else (q.reverse.takeWhile (fun c => c ≠ '/')).reverse

/-! ### Size bookkeeping for the cleaning algorithm

`compM cs` charges each component its length plus one separator; it bounds
the length of the cleaned string and shows `dir` shrinks its argument,
which terminates the directory-walking recursions of `deb.go`. -/

/-- Total length of components, one separator charged to each. -/
def compM (cs : List Str) : Nat := (cs.map (fun c => c.length + 1)).sum

theorem splitOnChar_ne_nil (sep : Char) (s : Str) : splitOnChar sep s ≠ [] := by
  cases s with
  | nil => simp [splitOnChar]
  | cons c cs =>
    rw [splitOnChar]
    by_cases hc : c = sep <;> simp [hc]

theorem compM_splitOnChar (sep : Char) (s : Str) :
    compM (splitOnChar sep s) = s.length + 1 := by
  induction s with
  | nil => simp [splitOnChar, compM]
  | cons c cs ih =>
    rcases h : splitOnChar sep cs with _ | ⟨t, ts⟩
    · exact absurd h (splitOnChar_ne_nil sep cs)
    · rw [h] at ih
      rw [splitOnChar, h]
      by_cases hc : c = sep
      · rw [if_pos hc]
        simp only [compM, List.map_cons, List.sum_cons, List.length_cons,
          List.length_nil] at ih ⊢
        omega
      · rw [if_neg hc]
        simp only [List.headD_cons, List.tail_cons]
        simp only [compM, List.map_cons, List.sum_cons, List.length_cons] at ih ⊢
        omega

theorem splitOnChar_no_sep (sep : Char) (s : Str) :
    ∀ x ∈ splitOnChar sep s, sep ∉ x := by
  induction s with
  | nil => simp [splitOnChar]
  | cons c cs ih =>
    rcases h : splitOnChar sep cs with _ | ⟨t, ts⟩
    · exact absurd h (splitOnChar_ne_nil sep cs)
    · rw [h] at ih
      rw [splitOnChar, h]
      by_cases hc : c = sep
      · rw [if_pos hc]
        intro x hx
        rcases List.mem_cons.mp hx with rfl | hx2
        · simp
        · exact ih x hx2
      · rw [if_neg hc]
        simp only [List.headD_cons, List.tail_cons]
        intro x hx
        rcases List.mem_cons.mp hx with rfl | hx2
        · intro hmem
          rcases List.mem_cons.mp hmem with rfl | hmem2
          · exact hc rfl
          · exact ih t (List.mem_cons_self t ts) hmem2
        · exact ih x (List.mem_cons_of_mem t hx2)

theorem splitOnChar_eq_singleton (sep : Char) (s : Str)
    (h : splitOnChar sep s = [[]]) : s = [] := by
  cases s with
  | nil => rfl
  | cons c cs =>
    exfalso
    rcases hs : splitOnChar sep cs with _ | ⟨t, ts⟩
    · exact splitOnChar_ne_nil sep cs hs
    · rw [splitOnChar, hs] at h
      by_cases hc : c = sep <;> simp [hc] at h

theorem splitOnChar_ends (sep : Char) (s : Str) (h : s.getLast? = some sep) :
    ∃ pre, splitOnChar sep s = pre ++ [[]] := by
  induction s with
  | nil => simp at h
  | cons c cs ih =>
    cases cs with
    | nil =>
      simp only [List.getLast?_singleton, Option.some.injEq] at h
      subst h
      exact ⟨[[]], by simp [splitOnChar]⟩
    | cons c2 cs2 =>
      have h2 : (c2 :: cs2).getLast? = some sep := by
        rwa [List.getLast?_cons_cons] at h
      obtain ⟨pre, hpre⟩ := ih h2
      cases pre with
      | nil =>
        exfalso
        have := splitOnChar_eq_singleton sep (c2 :: cs2) (by simpa using hpre)
        simp at this
      | cons t ts =>
        rw [splitOnChar, hpre]
        by_cases hc : c = sep
        · exact ⟨[] :: t :: ts, by simp [hc]⟩
        · exact ⟨(c :: t) :: ts, by simp [hc]⟩

theorem compM_filter_le (p : Str → Bool) (l : List Str) :
    compM (l.filter p) ≤ compM l := by
  induction l with
  | nil => simp [compM]
  | cons c cs ih =>
    by_cases h : p c
    · simp only [List.filter_cons, h, if_true, compM, List.map_cons, List.sum_cons] at ih ⊢
      omega
    · simp only [List.filter_cons, h, Bool.false_eq_true, if_false, compM,
        List.map_cons, List.sum_cons] at ih ⊢
      omega

theorem compM_components_le (s : Str) (h : s.getLast? = some '/') :
    compM (components s) ≤ s.length := by
  obtain ⟨pre, hpre⟩ := splitOnChar_ends '/' s h
  have hsum := compM_splitOnChar '/' s
  rw [hpre] at hsum
  have hp : compM pre + 1 = s.length + 1 := by
    simpa [compM, List.map_append, List.sum_append] using hsum
  have : components s = pre.filter keepComp := by
    simp [components, hpre, List.filter_append, keepComp]
  rw [this]
  have := compM_filter_le keepComp pre
  omega

theorem compM_reverse (l : List Str) : compM l.reverse = compM l := by
  simp [compM, List.map_reverse, List.sum_reverse]

theorem mem_ddStep (r : Bool) (st : List Str) (c x : Str) (hx : x ∈ ddStep r st c) :
    x = c ∨ x ∈ st := by
  unfold ddStep at hx
  by_cases hc : c = ['.', '.']
  · rw [if_pos hc] at hx
    cases st with
    | nil =>
      simp only [if_pos rfl] at hx
      cases r <;> simp_all
    | cons top rest =>
      rw [if_neg (by simp)] at hx
      simp only [List.headD_cons, List.tail_cons] at hx
      by_cases ht : top = ['.', '.']
      · rw [if_pos ht] at hx
        rcases List.mem_cons.mp hx with rfl | hx2
        · exact Or.inl rfl
        · exact Or.inr hx2
      · rw [if_neg ht] at hx
        exact Or.inr (List.mem_cons_of_mem top hx)
  · rw [if_neg hc] at hx
    rcases List.mem_cons.mp hx with rfl | hx2
    · exact Or.inl rfl
    · exact Or.inr hx2

theorem compM_ddStep (r : Bool) (st : List Str) (c : Str) :
    compM (ddStep r st c) ≤ compM st + (c.length + 1) := by
  unfold ddStep
  by_cases hc : c = ['.', '.']
  · rw [if_pos hc]
    cases st with
    | nil =>
      simp only [if_pos rfl]
      cases r <;> simp [compM]
    | cons top rest =>
      rw [if_neg (by simp)]
      simp only [List.headD_cons, List.tail_cons]
      by_cases ht : top = ['.', '.']
      · rw [if_pos ht]
        simp only [compM, List.map_cons, List.sum_cons]
        omega
      · rw [if_neg ht]
        simp only [compM, List.map_cons, List.sum_cons]
        omega
  · rw [if_neg hc]
    simp only [compM, List.map_cons, List.sum_cons]
    omega

theorem compM_foldl_ddStep (r : Bool) (cs : List Str) :
    ∀ st, compM (List.foldl (ddStep r) st cs) ≤ compM st + compM cs := by
  induction cs with
  | nil => intro st; simp [compM]
  | cons c cs ih =>
    intro st
    have h1 := ih (ddStep r st c)
    have h2 := compM_ddStep r st c
    simp only [List.foldl_cons]
    calc compM (List.foldl (ddStep r) (ddStep r st c) cs)
        ≤ compM (ddStep r st c) + compM cs := h1
      _ ≤ (compM st + (c.length + 1)) + compM cs := by omega
      _ = compM st + compM (c :: cs) := by
          simp only [compM, List.map_cons, List.sum_cons]; omega

theorem mem_foldl_ddStep (r : Bool) (cs : List Str) :
    ∀ st x, x ∈ List.foldl (ddStep r) st cs → x ∈ st ∨ x ∈ cs ∨ x = ['.', '.'] := by
  induction cs with
  | nil => intro st x hx; exact Or.inl hx
  | cons c cs ih =>
    intro st x hx
    rcases ih (ddStep r st c) x hx with h | h | h
    · rcases mem_ddStep r st c x h with rfl | h2
      · exact Or.inr (Or.inl (List.mem_cons_self x cs))
      · exact Or.inl h2
    · exact Or.inr (Or.inl (List.mem_cons_of_mem c h))
    · exact Or.inr (Or.inr h)

theorem getLast?_cons_ne {α : Type} (a : α) (l : List α) (h : l ≠ []) :
    (a :: l).getLast? = l.getLast? := by
  cases l with
  | nil => exact absurd rfl h
  | cons b bs => exact List.getLast?_cons_cons

theorem getLast?_append_ne {α : Type} (l₁ l₂ : List α) (h : l₂ ≠ []) :
    (l₁ ++ l₂).getLast? = l₂.getLast? := by
  induction l₁ with
  | nil => rfl
  | cons a as ih =>
    have hne : as ++ l₂ ≠ [] := by
      intro hh
      exact h (List.append_eq_nil.mp hh).2
    rw [List.cons_append, getLast?_cons_ne a (as ++ l₂) hne, ih]

theorem joinSlash_ne_nil (cs : List Str) (h : ∀ x ∈ cs, x ≠ []) (hne : cs ≠ []) :
    joinSlash cs ≠ [] := by
  cases cs with
  | nil => exact absurd rfl hne
  | cons c cs2 =>
    cases cs2 with
    | nil => exact h c (List.mem_cons_self c [])
    | cons c2 cs3 =>
      rw [joinSlash]
      simp

theorem joinSlash_length (cs : List Str) (hne : cs ≠ []) :
    (joinSlash cs).length + 1 = compM cs := by
  induction cs with
  | nil => exact absurd rfl hne
  | cons c cs2 ih =>
    cases cs2 with
    | nil => simp [joinSlash, compM]
    | cons c2 cs3 =>
      rw [joinSlash]
      have := ih (by simp)
      simp only [compM, List.map_cons, List.sum_cons] at this ⊢
      simp only [List.length_append, List.length_cons]
      omega

theorem joinSlash_getLast_ne_slash (cs : List Str)
    (h : ∀ x ∈ cs, x ≠ [] ∧ '/' ∉ x) (hne : cs ≠ []) :
    (joinSlash cs).getLast? ≠ some '/' := by
  induction cs with
  | nil => exact absurd rfl hne
  | cons c cs2 ih =>
    cases cs2 with
    | nil =>
      simp only [joinSlash]
      obtain ⟨hc, hs⟩ := h c (List.mem_cons_self c [])
      rw [List.getLast?_eq_getLast c hc]
      intro heq
      have := List.getLast_mem hc
      rw [Option.some.injEq] at heq
      rw [heq] at this
      exact hs this
    | cons c2 cs3 =>
      rw [joinSlash]
      have hj : joinSlash (c2 :: cs3) ≠ [] := by
        refine joinSlash_ne_nil _ (fun x hx => (h x (List.mem_cons_of_mem c hx)).1) (by simp)
      rw [getLast?_append_ne _ _ (by simp), getLast?_cons_ne '/' _ hj]
      exact ih (fun x hx => h x (List.mem_cons_of_mem c hx)) (by simp)

theorem clean_ne_nil (p : Str) : clean p ≠ [] := by
  unfold clean
  by_cases hp : p = []
  · simp [hp]
  · rw [if_neg hp]
    by_cases ho : cleanOut p = []
    · simp [ho]
    · rw [if_neg ho]
      exact ho

/-- Every element left on the `..`-resolution stack for a cleaned path is a
nonempty slash-free component. -/
theorem elimDD_elem (p : Str) (x : Str) (hx : x ∈ elimDD (isRooted p) (components p)) :
    x ≠ [] ∧ '/' ∉ x := by
  rcases mem_foldl_ddStep (isRooted p) (components p) [] x hx with h | h | h
  · simp at h
  · have hk : keepComp x = true := List.of_mem_filter h
    have hmem : x ∈ splitOnChar '/' p := List.mem_of_mem_filter h
    have := splitOnChar_no_sep '/' p x hmem
    refine ⟨?_, this⟩
    have := of_decide_eq_true hk
    exact this.1
  · subst h
    refine ⟨by simp, by simp⟩

theorem clean_getLast_ne_slash (p : Str) :
    clean p = ['/'] ∨ (clean p).getLast? ≠ some '/' := by
  unfold clean
  by_cases hp : p = []
  · rw [if_pos hp]
    right; simp
  · rw [if_neg hp]
    rcases hst : (elimDD (isRooted p) (components p)).reverse with _ | ⟨c, cs⟩
    · rcases hr : isRooted p with _ | _
      · right
        rw [hr] at hst
        simp [cleanOut, cleanBody, hst, hr, joinSlash]
      · left
        rw [hr] at hst
        simp [cleanOut, cleanBody, hst, hr, joinSlash]
    · have helem : ∀ x ∈ c :: cs, x ≠ [] ∧ '/' ∉ x := by
        intro x hx
        refine elimDD_elem p x ?_
        have hxr : x ∈ (elimDD (isRooted p) (components p)).reverse := by rw [hst]; exact hx
        exact List.mem_reverse.mp hxr
      have hjoin := joinSlash_getLast_ne_slash (c :: cs) helem (by simp)
      have hjne : joinSlash (c :: cs) ≠ [] :=
        joinSlash_ne_nil _ (fun x hx => (helem x hx).1) (by simp)
      have hbody : cleanBody p = joinSlash (c :: cs) := by rw [cleanBody, hst]
      right
      rcases hr : isRooted p with _ | _
      · have ho : cleanOut p = joinSlash (c :: cs) := by rw [cleanOut, hr, if_neg (by simp), hbody]
        rw [ho, if_neg hjne]
        exact hjoin
      · have ho : cleanOut p = '/' :: joinSlash (c :: cs) := by rw [cleanOut, hr, if_pos rfl, hbody]
        rw [ho, if_neg (by simp), getLast?_cons_ne '/' _ hjne]
        exact hjoin

theorem isRooted_cons (c : Char) (cs : Str) (h : isRooted (c :: cs) = true) : c = '/' := by
  unfold isRooted at h
  exact of_decide_eq_true h

theorem components_cons_slash (rest : Str) :
    components ('/' :: rest) = components rest := by
  unfold components
  rw [splitOnChar, if_pos rfl, List.filter_cons]
  simp [keepComp]

theorem compM_elimDD_le (p : Str) :
    compM (elimDD (isRooted p) (components p)) ≤ compM (components p) := by
  have := compM_foldl_ddStep (isRooted p) (components p) []
  unfold elimDD
  simpa [compM] using this

theorem components_slash : components ['/'] = [] := by decide

/-- Cleaning a path that ends in a slash either yields the root or strictly
shrinks it: the trailing slash never survives. -/
theorem clean_shrink (q : Str) (h : q.getLast? = some '/') :
    clean q = ['/'] ∨ (clean q).length < q.length := by
  have hq : q ≠ [] := by intro hq; rw [hq] at h; simp at h
  have hA : compM (components q) ≤ q.length := compM_components_le q h
  have hE : compM (elimDD (isRooted q) (components q)) ≤ compM (components q) :=
    compM_elimDD_le q
  rcases hst : (elimDD (isRooted q) (components q)).reverse with _ | ⟨c, cs⟩
  · rcases hr : isRooted q with _ | _
    · right
      rw [hr] at hst
      have hc : clean q = ['.'] := by
        unfold clean cleanOut cleanBody
        rw [if_neg hq, hr, hst]
        simp [joinSlash]
      rw [hc]
      rcases q with _ | ⟨a, as⟩
      · simp at h
      · rcases as with _ | ⟨b, bs⟩
        · exfalso
          simp only [List.getLast?_singleton, Option.some.injEq] at h
          subst h
          simp [isRooted] at hr
        · simp
    · left
      rw [hr] at hst
      unfold clean cleanOut cleanBody
      rw [if_neg hq, hr, hst]
      simp [joinSlash]
  · have helem : ∀ x ∈ c :: cs, x ≠ [] ∧ '/' ∉ x := by
      intro x hx
      refine elimDD_elem q x ?_
      have hxr : x ∈ (elimDD (isRooted q) (components q)).reverse := by rw [hst]; exact hx
      exact List.mem_reverse.mp hxr
    have hjne : joinSlash (c :: cs) ≠ [] :=
      joinSlash_ne_nil _ (fun x hx => (helem x hx).1) (by simp)
    have hjl : (joinSlash (c :: cs)).length + 1 = compM (c :: cs) :=
      joinSlash_length _ (by simp)
    have hcc : compM (c :: cs) = compM (elimDD (isRooted q) (components q)) := by
      rw [← hst, compM_reverse]
    have hbody : cleanBody q = joinSlash (c :: cs) := by rw [cleanBody, hst]
    rcases hr : isRooted q with _ | _
    · right
      have ho : cleanOut q = joinSlash (c :: cs) := by
        rw [cleanOut, hr, if_neg (by simp), hbody]
      have hc : clean q = joinSlash (c :: cs) := by
        unfold clean
        rw [if_neg hq, ho, if_neg hjne]
      rw [hc]
      omega
    · right
      obtain ⟨rest, rfl⟩ : ∃ rest, q = '/' :: rest := by
        rcases q with _ | ⟨a, as⟩
        · simp at hq
        · exact ⟨as, by rw [isRooted_cons a as hr]⟩
      have hrest : rest ≠ [] := by
        rintro rfl
        rw [components_slash] at hst
        simp [elimDD] at hst
      have hrl : rest.getLast? = some '/' := by
        rwa [getLast?_cons_ne '/' rest hrest] at h
      have hcomp : components ('/' :: rest) = components rest := components_cons_slash rest
      have hA2 : compM (components rest) ≤ rest.length := compM_components_le rest hrl
      have ho : cleanOut ('/' :: rest) = '/' :: joinSlash (c :: cs) := by
        rw [cleanOut, hr, if_pos rfl, hbody]
      have hc : clean ('/' :: rest) = '/' :: joinSlash (c :: cs) := by
        unfold clean
        rw [if_neg hq, ho, if_neg (by simp)]
      rw [hc]
      rw [hcomp] at hA hE hcc
      simp only [List.length_cons]
      omega

theorem dropWhile_head_not (f : Char → Bool) (l : Str) (a : Char) (as : Str)
    (h : l.dropWhile f = a :: as) : f a = false := by
  induction l with
  | nil => simp at h
  | cons x xs ih =>
    rw [List.dropWhile_cons] at h
    by_cases hf : f x
    · rw [if_pos hf] at h
      exact ih h
    · rw [if_neg hf] at h
      rw [List.cons.injEq] at h
      rw [← h.1]
      exact Bool.not_eq_true _ |>.mp hf

theorem dirPart_nil_or_ends (p : Str) :
    dirPart p = [] ∨ (dirPart p).getLast? = some '/' := by
  unfold dirPart
  rcases hd : p.reverse.dropWhile (fun c => c ≠ '/') with _ | ⟨a, as⟩
  · left; simp
  · right
    have ha2 : a = '/' := by
      have := dropWhile_head_not (fun c => decide (c ≠ '/')) p.reverse a as hd
      simpa using this
    rw [List.getLast?_reverse]
    simp [ha2]

theorem dirPart_length_le (p : Str) : (dirPart p).length ≤ p.length := by
  unfold dirPart
  calc ((p.reverse.dropWhile (fun c => c ≠ '/')).reverse).length
      = (p.reverse.dropWhile (fun c => c ≠ '/')).length := List.length_reverse _
    _ ≤ p.reverse.length := (List.dropWhile_sublist _).length_le
    _ = p.length := List.length_reverse _

theorem clean_nil : clean [] = ['.'] := rfl

/-- `path.Dir` either reaches a fixed point (`.` or `/`) or strictly
shrinks its argument; this terminates every directory walk. -/
theorem dir_shrink (p : Str) :
    dir p = ['.'] ∨ dir p = ['/'] ∨ (dir p).length < p.length := by
  rcases dirPart_nil_or_ends p with h | h
  · left
    rw [dir, h, clean_nil]
  · rcases clean_shrink (dirPart p) h with h2 | h2
    · right; left; rw [dir, h2]
    · right; right
      rw [dir]
      exact lt_of_lt_of_le h2 (dirPart_length_le p)

theorem dir_fix (p : Str) (h : dir p = p) : p = ['.'] ∨ p = ['/'] := by
  rcases dir_shrink p with h2 | h2 | h2
  · left; rw [← h, h2]
  · right; rw [← h, h2]
  · exfalso
    rw [h] at h2
    exact lt_irrefl _ h2

/-- Termination measure for the ancestor-directory walks. -/
def pm (p : Str) : Nat := if p = ['.'] ∨ p = ['/'] then 0 else p.length + 1

theorem dir_dot : dir ['.'] = ['.'] := by decide

theorem pm_lt_dir (p : Str) (h1 : p ≠ ['/']) (h2 : dir p ≠ p) : pm (dir p) < pm p := by
  have hdot : p ≠ ['.'] := by
    rintro rfl
    exact h2 dir_dot
  have hp : pm p = p.length + 1 := by
    unfold pm
    rw [if_neg (by tauto)]
  rcases dir_shrink p with h3 | h3 | h3
  · rw [hp]
    unfold pm
    rw [if_pos (Or.inl h3)]
    omega
  · rw [hp]
    unfold pm
    rw [if_pos (Or.inr h3)]
    omega
  · have : pm (dir p) ≤ (dir p).length + 1 := by
      unfold pm
      split
      · omega
      · omega
    omega

/-- The ancestor chain of a path: the path, its parent, and so on until
`Dir` reaches its fixed point. -/
def dirChain (p : Str) : List Str :=
  if h : p = ['/'] ∨ dir p = p then [p]
  else p :: dirChain (dir p)
termination_by pm p
decreasing_by
  push_neg at h
  exact pm_lt_dir p h.1 h.2

theorem dirChain_single (p : Str) (h : p = ['/'] ∨ dir p = p) : dirChain p = [p] := by
  rw [dirChain, dif_pos h]

theorem dirChain_cons (p : Str) (h : ¬(p = ['/'] ∨ dir p = p)) :
    dirChain p = p :: dirChain (dir p) := by
  rw [dirChain, dif_neg h]

theorem self_mem_dirChain (p : Str) : p ∈ dirChain p := by
  by_cases h : p = ['/'] ∨ dir p = p
  · rw [dirChain_single p h]; simp
  · rw [dirChain_cons p h]; simp

theorem dirChain_pm_le (p : Str) : ∀ d ∈ dirChain p, pm d ≤ pm p := by
  by_cases h : p = ['/'] ∨ dir p = p
  · rw [dirChain_single p h]
    intro d hd
    simp only [List.mem_singleton] at hd
    subst hd
    exact le_refl _
  · rw [dirChain_cons p h]
    intro d hd
    rcases List.mem_cons.mp hd with rfl | hd2
    · exact le_refl _
    · push_neg at h
      have hlt := pm_lt_dir p h.1 h.2
      have := dirChain_pm_le (dir p) d hd2
      omega
termination_by pm p
decreasing_by
  push_neg at h
  exact pm_lt_dir p h.1 h.2

/-- A string in the image of `path.Clean`. -/
def cleanImage (x : Str) : Prop := ∃ q, clean q = x

theorem cleanImage_dir (p : Str) : cleanImage (dir p) := ⟨dirPart p, rfl⟩

theorem cleanImage_ne_nil (x : Str) (h : cleanImage x) : x ≠ [] := by
  obtain ⟨q, rfl⟩ := h
  exact clean_ne_nil q

theorem cleanImage_getLast (x : Str) (h : cleanImage x) :
    x = ['/'] ∨ x.getLast? ≠ some '/' := by
  obtain ⟨q, rfl⟩ := h
  exact clean_getLast_ne_slash q

theorem dirChain_cleanImage (p : Str) : ∀ d ∈ dirChain p, d = p ∨ cleanImage d := by
  by_cases h : p = ['/'] ∨ dir p = p
  · rw [dirChain_single p h]
    intro d hd
    simp only [List.mem_singleton] at hd
    exact Or.inl hd
  · rw [dirChain_cons p h]
    intro d hd
    rcases List.mem_cons.mp hd with rfl | hd2
    · exact Or.inl rfl
    · rcases dirChain_cleanImage (dir p) d hd2 with rfl | h3
      · exact Or.inr (cleanImage_dir p)
      · exact Or.inr h3
termination_by pm p
decreasing_by
  push_neg at h
  exact pm_lt_dir p h.1 h.2

/-! ## `kr/text`: `Wrap` (minimal-raggedness line breaking) and `Indent` -/

/-- The ASCII cases of Go `unicode.IsSpace`. -/
def isSpaceGo (c : Char) : Bool :=
  c = ' ' ∨ c = '\t' ∨ c = '\n' ∨ c = '\x0B' ∨ c = '\x0C' ∨ c = '\r'

/-- Go `bytes.TrimSpace` (ASCII inputs). -/
def trimSpaceGo (s : Str) : Str :=
  ((s.dropWhile isSpaceGo).reverse.dropWhile isSpaceGo).reverse

/-- Join with a separator string (Go `strings.Join` / `bytes.Join`). -/
def joinSep (sep : Str) : List Str → Str
  | [] => []
  | [w] => w
  | w :: w2 :: ws => w ++ sep ++ joinSep sep (w2 :: ws)

/-- `length[i][j]` of `WrapWords`: total width of words `i..j` with `spc`
between neighbours. -/
def lenRange (ws : List Str) (spc : Int) (i j : Nat) : Int :=
  (((ws.drop i).take (j + 1 - i)).map (fun w => (w.length : Int))).sum
    + spc * ((j : Int) - (i : Int))

/-- The inner minimising loop of `WrapWords` for row `i`: `tail` holds
`(cost, nbrk)` for `i+1 .. n-1`; the initial cost is `math.MaxInt32` and
the initial break 0, updated on strict improvement. -/
def wwFold (spc lim pen : Int) (ws : List Str) (i : Nat) (tail : List (Int × Nat)) :
    Int × Nat :=
  (tail.foldl
    (fun (acc : (Int × Nat) × Nat) cj =>
      let j := acc.2
      let lenPrev := lenRange ws spc i (j - 1)
      let d := lim - lenPrev
      let c0 := d * d + cj.1
      let c := if lenPrev > lim then c0 + pen else c0
      ((if c < acc.1.1 then (c, j) else acc.1), j + 1))
    ((2147483647, 0), i + 1)).1

/-- The `(cost, nbrk)` rows of `WrapWords`, built from `i = n-1` downwards;
`wwTable spc lim pen ws n m` holds rows `n-m .. n-1`, head first. -/
def wwTable (spc lim pen : Int) (ws : List Str) (n : Nat) : Nat → List (Int × Nat)
  | 0 => []
  | m + 1 =>
    let tail := wwTable spc lim pen ws n m
    let i := n - (m + 1)
    let entry :=
      if lenRange ws spc i (n - 1) ≤ lim ∨ i = n - 1 then ((0 : Int), n)
      else wwFold spc lim pen ws i tail
    entry :: tail

/-- The line-reconstruction loop of `WrapWords` (`lines = words[i:nbrk[i]]`,
`i = nbrk[i]`).  Each realisable break consumes at least one word, so `n`
steps of fuel always suffice; on the degenerate rows Go's slice expression
panics, which the fuel cut-off replaces. -/
def wwLines (ws : List Str) (tab : List (Int × Nat)) (n : Nat) : Nat → Nat → List (List Str)
  | 0, _ => []
  | fuel + 1, i =>
    if i < n then
      ((ws.drop i).take (((tab.drop i).headD (0, n)).2 - i))
        :: wwLines ws tab n fuel ((tab.drop i).headD (0, n)).2
    else []

/-- Go `text.WrapWords`. -/
def wrapWords (spc lim pen : Int) (ws : List Str) : List (List Str) :=
  wwLines ws (wwTable spc lim pen ws ws.length ws.length) ws.length ws.length 0

/-- Go `text.Wrap(s, lim)`: trim, flatten newlines to spaces, split on
single spaces, break with penalty `1e5`, join back. -/
def wrapGo (s : Str) (lim : Int) : Str :=
  joinSep ['\n']
    ((wrapWords 1 lim 100000
        (splitOnChar ' ' ((trimSpaceGo s).map (fun c => if c = '\n' then ' ' else c)))).map
      (joinSep [' ']))

/-- Go `text.Indent(s, prefix)`: the prefix is inserted at every beginning
of line whose first character is not a newline. -/
def indentGo (b prefixStr : Str) : Str :=
  (b.foldl
    (fun (acc : Str × Bool) c =>
      (acc.1 ++ (if acc.2 = true ∧ c ≠ '\n' then prefixStr else []) ++ [c], c = '\n'))
    ([], true)).1

/-! ## `deb.go` -/

/-- One packaged file (`leaf`): destination path, permission mode, bytes. -/
structure Leaf where
  name : Str
  mode : Nat
  data : List Nat
  deriving DecidableEq

/-- The `Typeflag` values `deb.go` uses. -/
inductive TarType
  | reg
  | dir
  deriving DecidableEq

/-- One tar stream entry: the header fields `deb.go` sets, plus the bytes
written after the header. -/
structure TarEntry where
  name : Str
  mode : Nat
  size : Nat
  typeflag : TarType
  mtime : Nat
  content : List Nat
  deriving DecidableEq

def dirModeTar : Nat := 0o755

def fileModeTar : Nat := 0o644

def hasSlashSuffix (s : Str) : Bool := s.getLast? = some '/'

/-- The name `addTarDir` gives a directory entry before prefixing `.`:
unchanged at `/` or a `Dir` fixed point, otherwise slash-terminated. -/
def fullOf (name : Str) : Str :=
  if name = ['/'] ∨ name = dir name then name
  else if hasSlashSuffix name then name else name ++ ['/']

/-- The tar header `addTarDir` writes for directory `name`. -/
def mkDirEntry (now : Nat) (name : Str) : TarEntry :=
  ⟨'.' :: fullOf name, dirModeTar, 0, TarType.dir, now, []⟩

/-- `addTarDir`: emit the not-yet-emitted ancestors of `name` root-first,
then `name` itself, recording every emitted directory in `dirs`. -/
def addTarDir (now : Nat) (name : Str) (dirs : List Str) : List TarEntry × List Str :=
  if name ∈ dirs then ([], dirs)
  else if h : name = ['/'] ∨ name = dir name then ([mkDirEntry now name], name :: dirs)
  else
    ((if dir name ∈ dirs then ([], dirs) else addTarDir now (dir name) dirs).1
        ++ [mkDirEntry now name],
     name :: (if dir name ∈ dirs then ([], dirs) else addTarDir now (dir name) dirs).2)
termination_by pm name
decreasing_by
  all_goals
    push_neg at h
    exact pm_lt_dir name h.1 (Ne.symm h.2)

/-- The tar header and content `createDataTarball` writes for a file. -/
def mkFileEntry (now : Nat) (l : Leaf) : TarEntry :=
  ⟨if isRooted l.name then '.' :: l.name else l.name,
   fileModeTar, l.data.length, TarType.reg, now, l.data⟩

def insertLeaf (x : Leaf) : List Leaf → List Leaf
  | [] => [x]
  | y :: ys => if strLt x.name y.name then x :: y :: ys else y :: insertLeaf x ys

/-- `sort.Sort(leafs)` with `Less` comparing names. -/
def sortLeafs : List Leaf → List Leaf
  | [] => []
  | x :: xs => insertLeaf x (sortLeafs xs)

/-- One `md5sums` record: `fmt.Sprintf("%x  %s\n", checksum, name)`. -/
def md5Line (md5hex : List Nat → Str) (l : Leaf) : Str :=
  md5hex l.data ++ ' ' :: ' ' :: (l.name ++ ['\n'])

/-- The accumulating state of `createDataTarball`. -/
structure DState where
  entries : List TarEntry
  md5buf : Str
  size : Nat
  dirs : List Str

/-- The body of `createDataTarball`'s loop for one leaf. -/
def dataStep (now : Nat) (md5hex : List Nat → Str) (st : DState) (l : Leaf) : DState :=
  { entries := st.entries ++ (addTarDir now (dir l.name) st.dirs).1 ++ [mkFileEntry now l]
    md5buf := st.md5buf ++ md5Line md5hex l
    size := st.size + l.data.length
    dirs := (addTarDir now (dir l.name) st.dirs).2 }

/-- `Deb.createDataTarball`: sorted leafs folded through `dataStep`; the
results are the tar entries, the md5sums text and the cumulative size. -/
def createDataTarball (now : Nat) (md5hex : List Nat → Str) (t : List Leaf) : DState :=
  List.foldl (dataStep now md5hex) ⟨[], [], 0, []⟩ (sortLeafs t)

/-- The `Deb` metadata fields. -/
structure DebConf where
  Package : Str
  Version : Str
  Section : Str
  Priority : Str
  Architecture : Str
  Conflicts : List Str
  Depends : List Str
  Homepage : Str
  Maintainer : Str
  Description : Str
  LongDescription : Str

def defaultDebSection : Str := "utils".data

def defaultDebPriority : Str := "optional".data

/-- `NewDeb` with the build host architecture as a parameter
(Go reads `runtime.GOARCH`). -/
def NewDeb (name version goarch : Str) : DebConf :=
  { Package := name
    Version := version
    Section := defaultDebSection
    Priority := defaultDebPriority
    Architecture := if goarch = "386".data then "i386".data else goarch
    Conflicts := []
    Depends := []
    Homepage := []
    Maintainer := []
    Description := []
    LongDescription := [] }

/-- `Deb.Name`: `fmt.Sprintf("%s_%s_%s.deb", ...)`. -/
def debFileName (d : DebConf) : Str :=
  d.Package ++ '_' :: (d.Version ++ '_' :: (d.Architecture ++ ".deb".data))

def natDec (n : Nat) : Str := (Nat.repr n).data

/-- The rendered long description: unchanged when empty, otherwise wrapped
at 76 and indented by two spaces. -/
def longDesc (d : DebConf) : Str :=
  if d.LongDescription = [] then [] else indentGo (wrapGo d.LongDescription 76) "  ".data

/-- `Deb.control`: the control-file template instantiated. -/
def controlText (d : DebConf) (size : Nat) : Str :=
  "Package: ".data ++ d.Package ++ "\n".data ++
  "Version: ".data ++ d.Version ++ "\n".data ++
  "Architecture: ".data ++ d.Architecture ++ "\n".data ++
  "Maintainer: ".data ++ d.Maintainer ++ "\n".data ++
  "Installed-Size: ".data ++ natDec size ++ "\n".data ++
  "Conflicts: ".data ++ joinSep ", ".data d.Conflicts ++ "\n".data ++
  "Depends: ".data ++ joinSep ", ".data d.Depends ++ "\n".data ++
  "Section: ".data ++ d.Section ++ "\n".data ++
  "Priority: ".data ++ d.Priority ++ "\n".data ++
  "Homepage: ".data ++ d.Homepage ++ "\n".data ++
  "Description: ".data ++ d.Description ++ "\n".data ++
  longDesc d ++ "\n".data

/-- `Deb.createControlTarball`: `./control` then `./md5sums`, the size
already divided by 1024 by the caller's expression `size / 1024`. -/
def createControlTarball (d : DebConf) (now : Nat) (size : Nat) (md5sums : Str) :
    List TarEntry :=
  [⟨"./control".data, fileModeTar, (strBytes (controlText d (size / 1024))).length,
      TarType.reg, now, strBytes (controlText d (size / 1024))⟩,
   ⟨"./md5sums".data, fileModeTar, (strBytes md5sums).length,
      TarType.reg, now, strBytes md5sums⟩]

/-- An `ar` member body: raw bytes, or a tarball kept as its entries
(the gzip byte stream is elided). -/
inductive ArBody
  | bytes (bs : List Nat)
  | tarball (es : List TarEntry)
  deriving DecidableEq

/-- One `ar` member: the header fields `addArFile` sets plus the body. -/
structure ArMember where
  name : Str
  mode : Nat
  mtime : Nat
  body : ArBody
  deriving DecidableEq

/-- `addArFile`: fixed mode 0644, the shared timestamp. -/
def addArFile (now : Nat) (name : Str) (body : ArBody) : ArMember :=
  ⟨name, fileModeTar, now, body⟩

/-- `Deb.WriteTo`: debian-binary, control.tar.gz, data.tar.gz in order. -/
def writeTo (d : DebConf) (t : List Leaf) (now : Nat) (md5hex : List Nat → Str) :
    List ArMember :=
  [addArFile now "debian-binary".data (ArBody.bytes (strBytes "2.0\n".data)),
   addArFile now "control.tar.gz".data
     (ArBody.tarball (createControlTarball d now (createDataTarball now md5hex t).size
        (createDataTarball now md5hex t).md5buf)),
   addArFile now "data.tar.gz".data (ArBody.tarball (createDataTarball now md5hex t).entries)]

/-! ## `rpm.go` -/

def rpmMagic : List Nat := [0xed, 0xab, 0xee, 0xdb]

/-- The static architecture table (`rpmArch` of `rpm.go`). -/
def rpmArchTable (a : Str) : Option Nat :=
  if a = "386".data then some 1
  else if a = "amd64".data then some 1
  else if a = "arm".data then some 12
  else none

/-- The static operating-system table (`rpmOS` of `rpm.go`). -/
def rpmOSTable (o : Str) : Option Nat :=
  if o = "linux".data then some 1
  else if o = "freebsd".data then some 8
  else if o = "darwin".data then some 21
  else none

/-- `RPMHeader`: the legacy RPM lead as `rpm.go` declares it. -/
structure RPMHeaderRec where
  magic : List Nat
  major : Nat
  minor : Nat
  htype : Nat
  arch : Nat
  nameF : List Nat
  os : Nat
  sigType : Nat
  reserved : List Nat
  deriving DecidableEq

/-- `copy(h.Name[:65], name)` into the zeroed 66-byte array. -/
def nameField66 (name : Str) : List Nat :=
  (strBytes name).take 65 ++ List.replicate (66 - ((strBytes name).take 65).length) 0

/-- `newRPMHeader`: magic, major 3, minor 0, binary type, the two table
lookups failing construction on a miss. -/
def newRPMHeader (name arch os : Str) : Option RPMHeaderRec :=
  (rpmArchTable arch).bind fun ac =>
    (rpmOSTable os).bind fun oc =>
      some ⟨rpmMagic, 3, 0, 0, ac, nameField66 name, oc, 0, List.replicate 16 0⟩

/-- Big-endian 16-bit serialization: `uint8(x >> 8)` then `uint8(x)`. -/
def be16 (x : Nat) : List Nat := [x / 256 % 256, x % 256]

/-- `RPMHeader.WriteTo`: the serialized lead bytes. -/
def rpmHeaderBytes (h : RPMHeaderRec) : List Nat :=
  h.magic ++ [h.major, h.minor] ++ be16 h.htype ++ be16 h.arch ++ h.nameF
    ++ be16 h.os ++ be16 h.sigType ++ h.reserved

/-- The `RPM` writer after successful construction. -/
structure RPMConf where
  Package : Str
  Version : Str
  Group : Str
  Arch : Str
  header : RPMHeaderRec
  deriving DecidableEq

def defaultRPMGroup : Str := "Applications/Internet".data

/-- `RPM.Name`: `fmt.Sprintf("%s-%s.%s.rpm", ...)`. -/
def rpmFileName (name version arch : Str) : Str :=
  name ++ '-' :: (version ++ '.' :: (arch ++ ".rpm".data))

/-- `NewRPM` with the build host architecture and OS as parameters: the
`switch runtime.GOARCH` admits only 386 and amd64, then `newRPMHeader`
consults the two tables. -/
def NewRPM (name version goarch goos : Str) : Option RPMConf :=
  (if goarch = "386".data then some "i386".data
   else if goarch = "amd64".data then some "x86_64".data
   else none : Option Str).bind fun a =>
    (newRPMHeader (rpmFileName name version a) goarch goos).map fun h =>
      ⟨name, version, defaultRPMGroup, a, h⟩

/-! ## The virtual file `tree` (vfs model)

`ReadDir`'s inner `for` loop only leaves through the `ld == "/"` branch;
the model gives the loop explicit fuel, `none` meaning the loop has not
finished within that budget.  A result independent of all fuel values is
a genuine non-termination of the Go loop, whose state no longer changes
once `ld == p`. -/

/-- `os.FileInfo` as the `info` struct realises it. -/
structure InfoRec where
  name : Str
  size : Nat
  mode : Nat
  dirFlag : Bool
  deriving DecidableEq

/-- `filename`: `strings.TrimPrefix(p, "/")`. -/
def filenameGo (p : Str) : Str :=
  match p with
  | '/' :: r => r
  | _ => p

/-- Go map indexing on the tree (keys are unique). -/
def treeLookup (t : List Leaf) (k : Str) : Option Leaf :=
  t.find? (fun l => l.name == k)

/-- `leaf.stat()`: name and mode of the stored leaf. -/
def leafStatInfo (l : Leaf) : InfoRec := ⟨l.name, 0, l.mode, false⟩

/-- The zero value a failed map lookup leaves in `l`. -/
def zeroLeaf : Leaf := ⟨[], 0, []⟩

/-- `slashdir`. -/
def slashdir (p : Str) : Str :=
  if dir p = ['.'] then ['/']
  else if isRooted p then dir p
  else '/' :: dir p

/-- The per-entry loop state of `ReadDir` (`e` and `i` shared across
entries, the rest fresh). -/
structure WalkSt where
  ld : Str
  dirFlag : Bool
  last : Str
  es : List Str
  infos : List (Str × InfoRec)

def assocFind (m : List (Str × InfoRec)) (k : Str) : Option InfoRec :=
  (m.find? (fun kv => kv.1 == k)).map (fun kv => kv.2)

/-- The inner `for {}` loop of `ReadDir` for one stored entry `lp`. -/
def walkFuel (p lp : Str) (l : Leaf) : Nat → WalkSt → Option (List Str × List (Str × InfoRec))
  | 0, _ => none
  | fuel + 1, st =>
    if st.ld = p then
      walkFuel p lp l fuel
        (if assocFind st.infos (if st.dirFlag then st.last else base lp) = none then
          { st with
            es := st.es ++ [if st.dirFlag then st.last else base lp]
            infos := st.infos ++
              [(if st.dirFlag then st.last else base lp,
                if st.dirFlag then ⟨(if st.dirFlag then st.last else base lp), 0, 0o755, true⟩
                else leafStatInfo l)] }
        else st)
    else if st.ld = ['/'] then some (st.es, st.infos)
    else walkFuel p lp l fuel { st with dirFlag := true, last := base st.ld, ld := dir st.ld }

def insertStr (x : Str) : List Str → List Str
  | [] => [x]
  | y :: ys => if strLt x y then x :: y :: ys else y :: insertStr x ys

/-- `sort.Strings`. -/
def sortStrs : List Str → List Str
  | [] => []
  | x :: xs => insertStr x (sortStrs xs)

/-- Result of a `tree.ReadDir` call: the loop ran out of fuel without
reaching its `break`, the `os.ErrNotExist` failure, or the sorted listing. -/
inductive ReadDirOut
  | hung
  | failed
  | listed (xs : List InfoRec)
  deriving DecidableEq

/-- The outer loop of `ReadDir`: the walk of every stored entry threaded
through the shared `e`/`i` accumulators (already-cleaned query `p`). -/
def readDirFold (t : List Leaf) (p : Str) (fuel : Nat) :
    Option (List Str × List (Str × InfoRec)) :=
  t.foldl
    (fun (acc : Option (List Str × List (Str × InfoRec))) l =>
      match acc with
      | none => none
      | some (es, infos) =>
        walkFuel p l.name l fuel ⟨slashdir l.name, false, [], es, infos⟩)
    (some ([], []))

/-- `tree.ReadDir`: walk every stored entry, then sort and look up the
collected names; no name collected at all is `os.ErrNotExist`. -/
def readDirGo (t : List Leaf) (p0 : Str) (fuel : Nat) : ReadDirOut :=
  match readDirFold t (clean p0) fuel with
  | none => ReadDirOut.hung
  | some (es, infos) =>
    if es.length = 0 then ReadDirOut.failed
    else ReadDirOut.listed
      ((sortStrs es).map (fun b => (assocFind infos b).getD ⟨[], 0, 0, false⟩))

/-- `tree.Lstat` (and `tree.Stat`, which delegates to it): `none` when the
embedded `ReadDir` call never returns.  No error value is ever produced:
the `ReadDir` error is discarded and `leaf.Stat` returns a nil error even
for the zero leaf a failed map lookup leaves behind. -/
def lstatGo (t : List Leaf) (p : Str) (fuel : Nat) : Option InfoRec :=
  match treeLookup t (filenameGo p) with
  | some l => some (leafStatInfo l)
  | none =>
    match readDirGo t p fuel with
    | ReadDirOut.hung => none
    | r =>
      if (match r with | ReadDirOut.listed es => es | _ => []).length > 0 then
        some ⟨p, 0, 0o755, true⟩
      else some (leafStatInfo zeroLeaf)

/-! ## Claims about the RPM writer (C6, C7) -/

theorem getLast?_replicate_pos {α : Type} (n : Nat) (x : α) (h : n ≠ 0) :
    (List.replicate n x).getLast? = some x := by
  induction n with
  | zero => exact absurd rfl h
  | succ m ih =>
    cases m with
    | zero => rfl
    | succ k =>
      rw [List.replicate_succ, getLast?_cons_ne x _ (by simp)]
      exact ih (by simp)

theorem take65_le (name : Str) : ((strBytes name).take 65).length ≤ 65 := by
  rw [List.length_take]
  exact min_le_left _ _

theorem nameField66_length (name : Str) : (nameField66 name).length = 66 := by
  have := take65_le name
  rw [nameField66, List.length_append, List.length_replicate]
  omega

/-- C6 (amended: the record is 96 bytes, not 112): a successfully
constructed RPM header serializes to the fixed big-endian layout — 4-byte
magic `ed ab ee db`, major 3, minor 0, 2-byte type 0, 2-byte architecture
code, 66-byte zero-padded name whose final byte is always zero (at most 65
name bytes are copied), 2-byte OS code, 2-byte signature type 0 and 16
reserved zero bytes. -/
theorem c6_rpm_lead_layout (name arch os : Str) (h : RPMHeaderRec)
    (hh : newRPMHeader name arch os = some h) :
    ∃ ac oc, rpmArchTable arch = some ac ∧ rpmOSTable os = some oc ∧
      rpmHeaderBytes h =
        [0xed, 0xab, 0xee, 0xdb] ++ [3, 0] ++ be16 0 ++ be16 ac ++ nameField66 name
          ++ be16 oc ++ be16 0 ++ List.replicate 16 0 ∧
      (rpmHeaderBytes h).length = 96 ∧
      nameField66 name =
        (strBytes name).take 65 ++ List.replicate (66 - ((strBytes name).take 65).length) 0 ∧
      (nameField66 name).length = 66 ∧
      (nameField66 name).getLast? = some 0 := by
  unfold newRPMHeader at hh
  cases ha : rpmArchTable arch with
  | none => rw [ha] at hh; simp at hh
  | some ac =>
    rw [ha] at hh
    cases ho : rpmOSTable os with
    | none => rw [ho] at hh; simp at hh
    | some oc =>
      rw [ho] at hh
      simp only [Option.some_bind, Option.some.injEq] at hh
      subst hh
      have htake := take65_le name
      have hlen66 := nameField66_length name
      refine ⟨ac, oc, rfl, rfl, rfl, ?_, rfl, hlen66, ?_⟩
      · simp only [rpmHeaderBytes, be16, rpmMagic, List.length_append, List.length_cons,
          List.length_nil, List.length_replicate, hlen66]
      · rw [nameField66]
        rw [getLast?_append_ne _ _ (by
          intro hrep
          have : (66 - ((strBytes name).take 65).length) = 0 := by
            have := congrArg List.length hrep
            simpa using this
          omega)]
        exact getLast?_replicate_pos _ _ (by omega)

def demoRPMHdr : RPMHeaderRec :=
  ⟨rpmMagic, 3, 0, 0, 1, nameField66 "demo-1.0.x86_64.rpm".data, 1, 0, List.replicate 16 0⟩

/-- Witness for C6 at the concrete header of `demo-1.0.x86_64.rpm` on
amd64/linux. -/
theorem c6_rpm_lead_layout_witness :
    ∃ ac oc, rpmArchTable "amd64".data = some ac ∧ rpmOSTable "linux".data = some oc ∧
      rpmHeaderBytes demoRPMHdr =
        [0xed, 0xab, 0xee, 0xdb] ++ [3, 0] ++ be16 0 ++ be16 ac
          ++ nameField66 "demo-1.0.x86_64.rpm".data ++ be16 oc ++ be16 0
          ++ List.replicate 16 0 ∧
      (rpmHeaderBytes demoRPMHdr).length = 96 ∧
      nameField66 "demo-1.0.x86_64.rpm".data =
        (strBytes "demo-1.0.x86_64.rpm".data).take 65
          ++ List.replicate (66 - ((strBytes "demo-1.0.x86_64.rpm".data).take 65).length) 0 ∧
      (nameField66 "demo-1.0.x86_64.rpm".data).length = 66 ∧
      (nameField66 "demo-1.0.x86_64.rpm".data).getLast? = some 0 :=
  c6_rpm_lead_layout "demo-1.0.x86_64.rpm".data "amd64".data "linux".data demoRPMHdr (by decide)

/-- C6 counterexample to the claim as stated: the serialized lead of a
concretely constructed header is 96 bytes long, not 112. -/
theorem c6_lead_is_96_not_112 :
    (newRPMHeader "demo-1.0.x86_64.rpm".data "amd64".data "linux".data).map
        (fun h => (rpmHeaderBytes h).length) = some 96 ∧ (96 : Nat) ≠ 112 :=
  ⟨by decide, by decide⟩

theorem rpmOSTable_isSome_iff (o : Str) :
    (rpmOSTable o).isSome = true ↔
      (o = "linux".data ∨ o = "freebsd".data ∨ o = "darwin".data) := by
  unfold rpmOSTable
  by_cases h1 : o = "linux".data
  · rw [if_pos h1]; simp [h1]
  · rw [if_neg h1]
    by_cases h2 : o = "freebsd".data
    · rw [if_pos h2]; simp [h1, h2]
    · rw [if_neg h2]
      by_cases h3 : o = "darwin".data
      · rw [if_pos h3]; simp [h1, h2, h3]
      · rw [if_neg h3]; simp [h1, h2, h3]

theorem newRPMHeader_isSome (name arch os : Str) :
    (newRPMHeader name arch os).isSome
      = ((rpmArchTable arch).isSome && (rpmOSTable os).isSome) := by
  unfold newRPMHeader
  cases rpmArchTable arch with
  | none => simp
  | some ac =>
    cases rpmOSTable os with
    | none => simp
    | some oc => simp

/-- C7 (amended): `NewRPM` construction succeeds exactly when the host
architecture is 386 or amd64 — the `switch` in `NewRPM` rejects arm before
the table lookup, even though `rpmArch` has an entry for it — and the host
OS is linux, freebsd or darwin.  Construction performs no writes at all;
serialization only happens later, on a successfully constructed value. -/
theorem c7_newrpm_succeeds_iff (name version goarch goos : Str) :
    (NewRPM name version goarch goos).isSome = true ↔
      ((goarch = "386".data ∨ goarch = "amd64".data) ∧
       (goos = "linux".data ∨ goos = "freebsd".data ∨ goos = "darwin".data)) := by
  unfold NewRPM
  have hmap : ∀ (x : Option RPMHeaderRec) (f : RPMHeaderRec → RPMConf),
      (Option.map f x).isSome = x.isSome := fun x f => by cases x <;> rfl
  by_cases a1 : goarch = "386".data
  · subst a1
    rw [if_pos rfl, Option.some_bind, hmap, newRPMHeader_isSome]
    have harch : rpmArchTable "386".data = some 1 := by decide
    rw [harch, Option.isSome_some, Bool.true_and, rpmOSTable_isSome_iff]
    constructor
    · intro h; exact ⟨Or.inl rfl, h⟩
    · intro h; exact h.2
  · rw [if_neg a1]
    by_cases a2 : goarch = "amd64".data
    · subst a2
      rw [if_pos rfl, Option.some_bind, hmap, newRPMHeader_isSome]
      have harch : rpmArchTable "amd64".data = some 1 := by decide
      rw [harch, Option.isSome_some, Bool.true_and, rpmOSTable_isSome_iff]
      constructor
      · intro h; exact ⟨Or.inr rfl, h⟩
      · intro h; exact h.2
    · rw [if_neg a2]
      rw [Option.none_bind]
      simp only [Option.isSome_none, Bool.false_eq_true, false_iff]
      intro h
      rcases h.1 with h3 | h3
      · exact a1 h3
      · exact a2 h3

/-- C7 counterexample to the claim as stated: arm on linux is inside the
claimed tables (`rpmArch` maps arm to 12) and yet construction fails. -/
theorem c7_arm_linux_fails :
    NewRPM "demo".data "1.0".data "arm".data "linux".data = none ∧
    rpmArchTable "arm".data = some 12 :=
  ⟨by decide, by decide⟩

/-! ## Claims about the shape of `Deb.WriteTo` output (C2, C3, C10) -/

theorem perm_insertLeaf (x : Leaf) (l : List Leaf) : (insertLeaf x l).Perm (x :: l) := by
  induction l with
  | nil => exact List.Perm.refl _
  | cons y ys ih =>
    rw [insertLeaf]
    by_cases h : strLt x.name y.name
    · rw [if_pos h]
    · rw [if_neg h]
      exact (List.Perm.cons y ih).trans (List.Perm.swap x y ys)

theorem perm_sortLeafs (l : List Leaf) : (sortLeafs l).Perm l := by
  induction l with
  | nil => exact List.Perm.refl _
  | cons x xs ih =>
    rw [sortLeafs]
    exact (perm_insertLeaf x (sortLeafs xs)).trans (List.Perm.cons x ih)

theorem foldl_dataStep_size (now : Nat) (md5hex : List Nat → Str) (ls : List Leaf) :
    ∀ st : DState, (List.foldl (dataStep now md5hex) st ls).size
      = st.size + (ls.map (fun l => l.data.length)).sum := by
  induction ls with
  | nil => intro st; simp
  | cons l ls ih =>
    intro st
    rw [List.foldl_cons, ih, List.map_cons, List.sum_cons]
    have hstep : (dataStep now md5hex st l).size = st.size + l.data.length := rfl
    rw [hstep]
    omega

/-- The cumulative `size` of the data tarball is the total content length
of the added files. -/
theorem createDataTarball_size (now : Nat) (md5hex : List Nat → Str) (t : List Leaf) :
    (createDataTarball now md5hex t).size = (t.map (fun l => l.data.length)).sum := by
  rw [createDataTarball, foldl_dataStep_size]
  have hperm : ((sortLeafs t).map (fun l => l.data.length)).Perm
      (t.map (fun l => l.data.length)) := (perm_sortLeafs t).map _
  rw [hperm.sum_eq]
  simp

/-- C2: the `ar` archive has exactly three members, named and ordered
`debian-binary`, `control.tar.gz`, `data.tar.gz`, each with mode 0644;
`debian-binary` holds the literal bytes `"2.0\n"`, and the control tarball
holds exactly two regular-file entries, `./control` then `./md5sums`. -/
theorem c2_ar_members (d : DebConf) (t : List Leaf) (now : Nat) (md5hex : List Nat → Str) :
    (writeTo d t now md5hex).map (fun m => m.name)
        = ["debian-binary".data, "control.tar.gz".data, "data.tar.gz".data] ∧
    (writeTo d t now md5hex).map (fun m => m.mode) = [0o644, 0o644, 0o644] ∧
    (writeTo d t now md5hex).length = 3 ∧
    ((writeTo d t now md5hex).get? 0).map (fun m => m.body)
        = some (ArBody.bytes (strBytes "2.0\n".data)) ∧
    (∃ cbytes mbytes, ((writeTo d t now md5hex).get? 1).map (fun m => m.body)
        = some (ArBody.tarball
            [⟨"./control".data, fileModeTar, cbytes.length, TarType.reg, now, cbytes⟩,
             ⟨"./md5sums".data, fileModeTar, mbytes.length, TarType.reg, now, mbytes⟩])) ∧
    (∃ es, ((writeTo d t now md5hex).get? 2).map (fun m => m.body) = some (ArBody.tarball es)) :=
  ⟨rfl, rfl, rfl, rfl, ⟨_, _, rfl⟩, ⟨_, rfl⟩⟩

/-- C3: the control member's `./control` entry carries the control text
whose Installed-Size argument is the truncating division by 1024 of the
total content byte length of all added files. -/
theorem c3_installed_size (d : DebConf) (t : List Leaf) (now : Nat) (md5hex : List Nat → Str) :
    (createDataTarball now md5hex t).size = (t.map (fun l => l.data.length)).sum ∧
    ∃ mdBytes,
      ((writeTo d t now md5hex).get? 1).map (fun m => m.body)
        = some (ArBody.tarball
            [⟨"./control".data, fileModeTar,
               (strBytes (controlText d ((t.map (fun l => l.data.length)).sum / 1024))).length,
               TarType.reg, now,
               strBytes (controlText d ((t.map (fun l => l.data.length)).sum / 1024))⟩,
             ⟨"./md5sums".data, fileModeTar, mdBytes.length, TarType.reg, now, mdBytes⟩]) := by
  have hs := createDataTarball_size now md5hex t
  refine ⟨hs, strBytes (createDataTarball now md5hex t).md5buf, ?_⟩
  show some (ArBody.tarball (createControlTarball d now
      (createDataTarball now md5hex t).size (createDataTarball now md5hex t).md5buf)) = _
  rw [hs]
  rfl

def tarMtimes (es : List TarEntry) : List Nat := es.map (fun e => e.mtime)

def memberMtimes (m : ArMember) : List Nat :=
  m.mtime :: (match m.body with
    | ArBody.bytes _ => []
    | ArBody.tarball es => tarMtimes es)

/-- Every timestamp embedded anywhere in the emitted package: the three ar
headers and every tar entry of both tarballs. -/
def packageMtimes (ms : List ArMember) : List Nat := (ms.map memberMtimes).flatten

theorem addTarDir_mtime (now : Nat) (name : Str) (dirs : List Str) :
    ∀ e ∈ (addTarDir now name dirs).1, e.mtime = now := by
  by_cases h0 : name ∈ dirs
  · rw [addTarDir, if_pos h0]
    intro e he
    simp at he
  · by_cases h : name = ['/'] ∨ name = dir name
    · rw [addTarDir, if_neg h0, dif_pos h]
      intro e he
      simp only [List.mem_singleton] at he
      rw [he]
      rfl
    · rw [addTarDir, if_neg h0, dif_neg h]
      intro e he
      by_cases hd : dir name ∈ dirs
      · rw [if_pos hd] at he
        simp only [List.nil_append, List.mem_singleton] at he
        rw [he]
        rfl
      · rw [if_neg hd] at he
        rcases List.mem_append.mp he with h1 | h1
        · exact addTarDir_mtime now (dir name) dirs e h1
        · simp only [List.mem_singleton] at h1
          rw [h1]
          rfl
termination_by pm name
decreasing_by
  push_neg at h
  exact pm_lt_dir name h.1 (Ne.symm h.2)

theorem foldl_dataStep_mtime (now : Nat) (md5hex : List Nat → Str) (ls : List Leaf) :
    ∀ st : DState, (∀ e ∈ st.entries, e.mtime = now) →
      ∀ e ∈ (List.foldl (dataStep now md5hex) st ls).entries, e.mtime = now := by
  induction ls with
  | nil => intro st h; exact h
  | cons l ls ih =>
    intro st h
    rw [List.foldl_cons]
    refine ih _ ?_
    intro e he
    rcases List.mem_append.mp he with h1 | h1
    · rcases List.mem_append.mp h1 with h2 | h2
      · exact h e h2
      · exact addTarDir_mtime now (dir l.name) st.dirs e h2
    · simp only [List.mem_singleton] at h1
      rw [h1]
      rfl

theorem createDataTarball_mtime (now : Nat) (md5hex : List Nat → Str) (t : List Leaf) :
    ∀ e ∈ (createDataTarball now md5hex t).entries, e.mtime = now := by
  refine foldl_dataStep_mtime now md5hex (sortLeafs t) ⟨[], [], 0, []⟩ ?_
  intro e he
  simp at he

theorem packageMtimes_all_now (d : DebConf) (t : List Leaf) (now : Nat)
    (md5hex : List Nat → Str) :
    ∀ x ∈ packageMtimes (writeTo d t now md5hex), x = now := by
  intro x hx
  have hdata := createDataTarball_mtime now md5hex t
  have hshape : packageMtimes (writeTo d t now md5hex)
      = [now] ++ ((now :: [now, now])
          ++ ((now :: tarMtimes (createDataTarball now md5hex t).entries) ++ [])) := rfl
  rw [hshape] at hx
  rcases List.mem_append.mp hx with h1 | h1
  · simp only [List.mem_singleton] at h1
    exact h1
  · rcases List.mem_append.mp h1 with h2 | h2
    · simp only [List.mem_cons, List.not_mem_nil, or_false] at h2
      rcases h2 with h3 | h3 | h3 <;> exact h3
    · rw [List.append_nil] at h2
      rcases List.mem_cons.mp h2 with h3 | h3
      · exact h3
      · rw [tarMtimes] at h3
        rcases List.mem_map.mp h3 with ⟨e, he, hee⟩
        rw [← hee]
        exact hdata e he

/-- C10: the single `now` captured at the start of `WriteTo` is the
modification time of every ar member header and of every tar entry in both
tarballs — the timestamp list of one emitted package is constantly that
`now`. -/
theorem c10_single_timestamp (d : DebConf) (t : List Leaf) (now : Nat)
    (md5hex : List Nat → Str) :
    packageMtimes (writeTo d t now md5hex)
      = List.replicate (packageMtimes (writeTo d t now md5hex)).length now := by
  rw [List.eq_replicate_length]
  exact packageMtimes_all_now d t now md5hex

/-! ## C4: the rendered control file -/

/-- The lines of a text, Go-style: split on every newline. -/
def textLines (s : Str) : List Str := splitOnChar '\n' s

theorem splitOnChar_append_sep (sep : Char) (a b : Str) (ha : sep ∉ a) :
    splitOnChar sep (a ++ sep :: b) = a :: splitOnChar sep b := by
  induction a with
  | nil =>
    rw [List.nil_append, splitOnChar, if_pos rfl]
  | cons c a2 ih =>
    have hc : ¬c = sep := by
      intro h
      exact ha (by rw [← h] at *; exact List.mem_cons_self c a2)
    have ha2 : sep ∉ a2 := fun h => ha (List.mem_cons_of_mem c h)
    rw [List.cons_append, splitOnChar, if_neg hc, ih ha2]
    simp

theorem splitOnChar_append2 (sep : Char) (a₁ a₂ b : Str) (h1 : sep ∉ a₁) (h2 : sep ∉ a₂) :
    splitOnChar sep (a₁ ++ (a₂ ++ sep :: b)) = (a₁ ++ a₂) :: splitOnChar sep b := by
  rw [← List.append_assoc]
  refine splitOnChar_append_sep sep (a₁ ++ a₂) b ?_
  intro h
  rcases List.mem_append.mp h with h3 | h3
  · exact h1 h3
  · exact h2 h3

theorem digitChar_lt16_ne_nl (m : Nat) (h : m < 16) : Nat.digitChar m ≠ '\n' := by
  interval_cases m <;> decide

theorem toDigitsCore_ne_nl :
    ∀ (fuel n : Nat) (acc : Str), (∀ c ∈ acc, c ≠ '\n') →
      ∀ c ∈ Nat.toDigitsCore 10 fuel n acc, c ≠ '\n' := by
  intro fuel
  induction fuel with
  | zero =>
    intro n acc hacc c hc
    exact hacc c hc
  | succ f ih =>
    intro n acc hacc c hc
    simp only [Nat.toDigitsCore] at hc
    by_cases hnb : n / 10 = 0
    · rw [if_pos hnb] at hc
      rcases List.mem_cons.mp hc with rfl | h2
      · exact digitChar_lt16_ne_nl _ (by omega)
      · exact hacc c h2
    · rw [if_neg hnb] at hc
      refine ih (n / 10) (Nat.digitChar (n % 10) :: acc) ?_ c hc
      intro c2 hc2
      rcases List.mem_cons.mp hc2 with rfl | h3
      · exact digitChar_lt16_ne_nl _ (by omega)
      · exact hacc c2 h3

theorem natDec_ne_nl (n : Nat) : '\n' ∉ natDec n := by
  intro hmem
  have heq : natDec n = Nat.toDigitsCore 10 (n + 1) n [] := rfl
  rw [heq] at hmem
  exact toDigitsCore_ne_nl (n + 1) n [] (by intro c hc; simp at hc) '\n' hmem rfl

/-- C4 (amended: there is no blank line between the `Description:` line and
the long description — the indented long description follows immediately):
with newline-free field values, the rendered control file consists of the
eleven header lines in the fixed order Package, Version, Architecture,
Maintainer, Installed-Size, Conflicts, Depends, Section, Priority,
Homepage, Description, immediately followed by the lines of the rendered
long description (wrapped with limit 76 and indented two spaces when
nonempty); `NewDeb` defaults Section to `utils` and Priority to
`optional`. -/
theorem c4_control_text_layout (d : DebConf) (n : Nat) (name version goarch : Str)
    (hP : '\n' ∉ d.Package) (hV : '\n' ∉ d.Version) (hA : '\n' ∉ d.Architecture)
    (hM : '\n' ∉ d.Maintainer) (hC : '\n' ∉ joinSep ", ".data d.Conflicts)
    (hD : '\n' ∉ joinSep ", ".data d.Depends) (hS : '\n' ∉ d.Section)
    (hPr : '\n' ∉ d.Priority) (hH : '\n' ∉ d.Homepage) (hDe : '\n' ∉ d.Description) :
    textLines (controlText d n) =
      ("Package: ".data ++ d.Package) ::
      ("Version: ".data ++ d.Version) ::
      ("Architecture: ".data ++ d.Architecture) ::
      ("Maintainer: ".data ++ d.Maintainer) ::
      ("Installed-Size: ".data ++ natDec n) ::
      ("Conflicts: ".data ++ joinSep ", ".data d.Conflicts) ::
      ("Depends: ".data ++ joinSep ", ".data d.Depends) ::
      ("Section: ".data ++ d.Section) ::
      ("Priority: ".data ++ d.Priority) ::
      ("Homepage: ".data ++ d.Homepage) ::
      ("Description: ".data ++ d.Description) ::
      textLines (longDesc d ++ "\n".data) ∧
    (NewDeb name version goarch).Section = "utils".data ∧
    (NewDeb name version goarch).Priority = "optional".data := by
  refine ⟨?_, rfl, rfl⟩
  have hshape : controlText d n =
      ("Package: ".data ++ d.Package) ++ '\n' ::
      (("Version: ".data ++ d.Version) ++ '\n' ::
      (("Architecture: ".data ++ d.Architecture) ++ '\n' ::
      (("Maintainer: ".data ++ d.Maintainer) ++ '\n' ::
      (("Installed-Size: ".data ++ natDec n) ++ '\n' ::
      (("Conflicts: ".data ++ joinSep ", ".data d.Conflicts) ++ '\n' ::
      (("Depends: ".data ++ joinSep ", ".data d.Depends) ++ '\n' ::
      (("Section: ".data ++ d.Section) ++ '\n' ::
      (("Priority: ".data ++ d.Priority) ++ '\n' ::
      (("Homepage: ".data ++ d.Homepage) ++ '\n' ::
      (("Description: ".data ++ d.Description) ++ '\n' ::
      (longDesc d ++ "\n".data))))))))))) := by
    simp only [controlText, List.append_assoc, List.cons_append, List.singleton_append,
      List.nil_append]
  have hx : ∀ (a : Str), '\n' ∉ a → ∀ (pre : Str), (∀ c ∈ pre, c ≠ '\n') →
      '\n' ∉ pre ++ a := by
    intro a ha pre hpre hmem
    rcases List.mem_append.mp hmem with h2 | h2
    · exact hpre '\n' h2 rfl
    · exact ha h2
  rw [textLines, hshape,
      splitOnChar_append_sep '\n' _ _ (hx _ hP _ (by decide)),
      splitOnChar_append_sep '\n' _ _ (hx _ hV _ (by decide)),
      splitOnChar_append_sep '\n' _ _ (hx _ hA _ (by decide)),
      splitOnChar_append_sep '\n' _ _ (hx _ hM _ (by decide)),
      splitOnChar_append_sep '\n' _ _ (hx _ (natDec_ne_nl n) _ (by decide)),
      splitOnChar_append_sep '\n' _ _ (hx _ hC _ (by decide)),
      splitOnChar_append_sep '\n' _ _ (hx _ hD _ (by decide)),
      splitOnChar_append_sep '\n' _ _ (hx _ hS _ (by decide)),
      splitOnChar_append_sep '\n' _ _ (hx _ hPr _ (by decide)),
      splitOnChar_append_sep '\n' _ _ (hx _ hH _ (by decide)),
      splitOnChar_append_sep '\n' _ _ (hx _ hDe _ (by decide))]
  rfl

/-- A concrete `Deb` value: `NewDeb("demo", "1.0")` on amd64 with metadata
attached the way `ParseMeta` does. -/
def demoDeb : DebConf :=
  { NewDeb "demo".data "1.0".data "amd64".data with
    Maintainer := "dev@example.com".data
    Homepage := "https://example.com".data
    Description := "Demo summary".data
    LongDescription := "hello world".data }

/-- Witness for C4 at the concrete `demoDeb` with Installed-Size 3. -/
theorem c4_control_text_layout_witness :
    textLines (controlText demoDeb 3) =
      ("Package: ".data ++ demoDeb.Package) ::
      ("Version: ".data ++ demoDeb.Version) ::
      ("Architecture: ".data ++ demoDeb.Architecture) ::
      ("Maintainer: ".data ++ demoDeb.Maintainer) ::
      ("Installed-Size: ".data ++ natDec 3) ::
      ("Conflicts: ".data ++ joinSep ", ".data demoDeb.Conflicts) ::
      ("Depends: ".data ++ joinSep ", ".data demoDeb.Depends) ::
      ("Section: ".data ++ demoDeb.Section) ::
      ("Priority: ".data ++ demoDeb.Priority) ::
      ("Homepage: ".data ++ demoDeb.Homepage) ::
      ("Description: ".data ++ demoDeb.Description) ::
      textLines (longDesc demoDeb ++ "\n".data) ∧
    (NewDeb "demo".data "1.0".data "amd64".data).Section = "utils".data ∧
    (NewDeb "demo".data "1.0".data "amd64".data).Priority = "optional".data :=
  c4_control_text_layout demoDeb 3 "demo".data "1.0".data "amd64".data
    (by decide) (by decide) (by decide) (by decide) (by decide) (by decide)
    (by decide) (by decide) (by decide) (by decide)

/-- C4 counterexample to the claim as stated: for a concrete package with a
nonempty long description, the rendered control text contains no pair of
consecutive newlines at all — so no blank line precedes the long
description. -/
theorem c4_no_blank_line :
    ((List.range ((controlText demoDeb 3).length + 1)).any
        (fun i => List.isPrefixOf ['\n', '\n'] ((controlText demoDeb 3).drop i))) = false ∧
    longDesc demoDeb ≠ [] := by
  constructor
  · decide
  · decide

/-! ## C5: the concrete `bin/app` package -/

def demoLeaf : Leaf := ⟨"bin/app".data, 0o755, strBytes "#!/bin/sh".data⟩

def demoTree : List Leaf := [demoLeaf]

theorem addTarDir_dot (now : Nat) :
    addTarDir now ['.'] [] = ([mkDirEntry now ['.']], [['.']]) := by
  rw [addTarDir, if_neg (by simp), dif_pos (Or.inr dir_dot.symm)]

theorem addTarDir_bin (now : Nat) :
    addTarDir now "bin".data []
      = ([mkDirEntry now ['.'], mkDirEntry now "bin".data], ["bin".data, ['.']]) := by
  have hd : dir "bin".data = ['.'] := by decide
  rw [addTarDir, if_neg (by simp), dif_neg (by decide), hd, if_neg (by simp), addTarDir_dot]
  rfl

theorem demo_data_state (now : Nat) (md5hex : List Nat → Str) :
    createDataTarball now md5hex demoTree =
      ⟨[mkDirEntry now ['.'], mkDirEntry now "bin".data, mkFileEntry now demoLeaf],
       md5Line md5hex demoLeaf, 9, ["bin".data, ['.']]⟩ := by
  have hd : dir demoLeaf.name = "bin".data := by decide
  show List.foldl (dataStep now md5hex) ⟨[], [], 0, []⟩ [demoLeaf] = _
  rw [List.foldl_cons, List.foldl_nil, dataStep, hd, addTarDir_bin]
  rfl

/-- C5 (amended: the tar mode of the file entry is 0644 — the data writer
hardcodes 0644 and ignores the added mode — and the synthesized directory
entry names carry the `.`-prefix verbatim, so the relative path `bin/app`
yields `..` and `.bin/`): adding `bin/app` (0755, the 9 bytes of
`#!/bin/sh`) to `NewDeb("demo","1.0")` on amd64 names the archive
`demo_1.0_amd64.deb`; `data.tar.gz` holds the two directory entries
followed by the file entry `bin/app` of size 9 and mode 0644; `md5sums` is
the single record for `bin/app`. -/
theorem c5_demo_package (now : Nat) (md5hex : List Nat → Str) :
    debFileName (NewDeb "demo".data "1.0".data "amd64".data) = "demo_1.0_amd64.deb".data ∧
    (createDataTarball now md5hex demoTree).entries =
      [⟨"..".data, 0o755, 0, TarType.dir, now, []⟩,
       ⟨".bin/".data, 0o755, 0, TarType.dir, now, []⟩,
       ⟨"bin/app".data, 0o644, 9, TarType.reg, now, strBytes "#!/bin/sh".data⟩] ∧
    (createDataTarball now md5hex demoTree).md5buf
      = md5hex (strBytes "#!/bin/sh".data) ++ "  bin/app\n".data := by
  refine ⟨by decide, ?_, ?_⟩
  · rw [demo_data_state]
    rfl
  · rw [demo_data_state]
    rfl

/-- C5 counterexample to the claim as stated: in the concretely produced
data tarball the `bin/app` file entry has tar mode 0644, not the claimed
0755 (and no entry named `bin/` exists — the directory entries are `..`
and `.bin/`). -/
theorem c5_file_mode_is_0644 :
    ((createDataTarball 0 (fun _ => []) demoTree).entries.map
        (fun e => (e.name, e.mode, e.size)))
      = [("..".data, 0o755, 0), (".bin/".data, 0o755, 0), ("bin/app".data, 0o644, 9)] ∧
    ¬(0o644 : Nat) = 0o755 := by
  refine ⟨?_, by decide⟩
  rw [demo_data_state]
  rfl

/-! ## C8, C9: `tree.Lstat` and `tree.ReadDir` -/

/-- Once the walk state reaches `ld = p`, no branch of the loop body
changes `ld` again and the `break` arm is unreachable: the loop consumes
all fuel, whatever the fuel. -/
theorem walkFuel_stuck (p lp : Str) (l : Leaf) :
    ∀ (fuel : Nat) (st : WalkSt), st.ld = p → walkFuel p lp l fuel st = none := by
  intro fuel
  induction fuel with
  | zero => intro st h; rfl
  | succ f ih =>
    intro st h
    rw [walkFuel, if_pos h]
    apply ih
    by_cases ha : assocFind st.infos (if st.dirFlag then st.last else base lp) = none
    · rw [if_pos ha]
      exact h
    · rw [if_neg ha]
      exact h

theorem readDirFold_demo_hangs (p : Str) (fuel : Nat)
    (h : walkFuel p demoLeaf.name demoLeaf fuel
        ⟨slashdir demoLeaf.name, false, [], [], []⟩ = none) :
    readDirFold demoTree p fuel = none := by
  have hdt : demoTree = [demoLeaf] := rfl
  rw [readDirFold, hdt, List.foldl_cons, List.foldl_nil]
  show walkFuel p demoLeaf.name demoLeaf fuel ⟨slashdir demoLeaf.name, false, [], [], []⟩ = none
  exact h

/-- C9 (code bug): on the tree `{bin/app}`, `ReadDir("/")` never
terminates, for every fuel budget — once the inner loop's `ld` reaches the
queried directory, recording a name changes nothing else and the `break`
arm is unreachable.  Listing a path nothing falls under does terminate
with `os.ErrNotExist` (second conjunct). -/
theorem c9_readdir_root_hangs :
    (∀ fuel, readDirGo demoTree "/".data fuel = ReadDirOut.hung) ∧
    readDirGo demoTree "/nope".data 3 = ReadDirOut.failed := by
  constructor
  · intro fuel
    have hw : walkFuel (clean "/".data) demoLeaf.name demoLeaf fuel
        ⟨slashdir demoLeaf.name, false, [], [], []⟩ = none := by
      cases fuel with
      | zero => rfl
      | succ f =>
        rw [walkFuel, if_neg (by decide), if_neg (by decide)]
        apply walkFuel_stuck
        decide
    rw [readDirGo, readDirFold_demo_hangs (clean "/".data) fuel hw]
  · decide

/-- C8 (code bug): on the tree `{bin/app}` — stat of the exact path
`/bin/app` returns the stored entry's info (third conjunct), but stat of
the ancestor directory `/bin` never terminates for any fuel (the embedded
`ReadDir` call hangs) instead of returning a synthetic 0755 directory, and
stat of the unmatched path `/nope` returns the zero leaf's file info
(empty name, mode 0, not a directory) with a nil error instead of failing
with NotFound. -/
theorem c8_lstat_behaviour :
    (∀ fuel, lstatGo demoTree "/bin".data fuel = none) ∧
    lstatGo demoTree "/nope".data 3 = some (leafStatInfo zeroLeaf) ∧
    lstatGo demoTree "/bin/app".data 0 = some ⟨"bin/app".data, 0, 0o755, false⟩ := by
  refine ⟨?_, by decide, by decide⟩
  intro fuel
  have hw : walkFuel (clean "/bin".data) demoLeaf.name demoLeaf fuel
      ⟨slashdir demoLeaf.name, false, [], [], []⟩ = none := by
    apply walkFuel_stuck
    decide
  have hrd : readDirGo demoTree "/bin".data fuel = ReadDirOut.hung := by
    rw [readDirGo, readDirFold_demo_hangs (clean "/bin".data) fuel hw]
  rw [lstatGo]
  have hlk : treeLookup demoTree (filenameGo "/bin".data) = none := by decide
  rw [hlk, hrd]

/-! ## C1: directory entries precede their descendants, once each

The plan: `addTarDir` is characterised by the list `ks` of directory keys
it emits (root-first); the fold over the sorted leafs maintains an
invariant tying the emitted entries to the accumulated `dirs` set. -/

theorem fullOf_dot : fullOf ['.'] = ['.'] := by decide

theorem fullOf_slash : fullOf ['/'] = ['/'] := by decide

theorem fullOf_of_not_fix (k : Str) (hk : cleanImage k) (h1 : k ≠ ['.']) (h2 : k ≠ ['/']) :
    fullOf k = k ++ ['/'] := by
  unfold fullOf
  rw [if_neg ?hg, if_neg ?hs]
  case hg =>
    rintro (h3 | h3)
    · exact h2 h3
    · rcases dir_fix k h3.symm with h4 | h4
      · exact h1 h4
      · exact h2 h4
  case hs =>
    rcases cleanImage_getLast k hk with h3 | h3
    · exact absurd h3 h2
    · simp only [hasSlashSuffix, decide_eq_true_eq]
      exact h3

theorem fullOf_inj (k₁ k₂ : Str) (h1 : cleanImage k₁) (h2 : cleanImage k₂)
    (heq : fullOf k₁ = fullOf k₂) : k₁ = k₂ := by
  by_cases hd1 : k₁ = ['.']
  · subst hd1
    by_cases hd2 : k₂ = ['.']
    · exact hd2.symm
    · by_cases hs2 : k₂ = ['/']
      · exfalso
        rw [fullOf_dot, hs2, fullOf_slash] at heq
        simp at heq
      · exfalso
        rw [fullOf_dot, fullOf_of_not_fix k₂ h2 hd2 hs2] at heq
        have hg : (k₂ ++ ['/']).getLast? = some '/' := getLast?_append_ne _ _ (by simp)
        rw [← heq] at hg
        simp at hg
  · by_cases hs1 : k₁ = ['/']
    · subst hs1
      by_cases hd2 : k₂ = ['.']
      · exfalso
        rw [fullOf_slash, hd2, fullOf_dot] at heq
        simp at heq
      · by_cases hs2 : k₂ = ['/']
        · exact hs2.symm
        · exfalso
          rw [fullOf_slash, fullOf_of_not_fix k₂ h2 hd2 hs2] at heq
          have hl := congrArg List.length heq
          simp only [List.length_append, List.length_cons, List.length_nil] at hl
          exact cleanImage_ne_nil k₂ h2 (List.length_eq_zero.mp (by omega))
    · by_cases hd2 : k₂ = ['.']
      · exfalso
        rw [hd2, fullOf_dot, fullOf_of_not_fix k₁ h1 hd1 hs1] at heq
        have hg : (k₁ ++ ['/']).getLast? = some '/' := getLast?_append_ne _ _ (by simp)
        rw [heq] at hg
        simp at hg
      · by_cases hs2 : k₂ = ['/']
        · exfalso
          rw [hs2, fullOf_slash, fullOf_of_not_fix k₁ h1 hd1 hs1] at heq
          have hl := congrArg List.length heq
          simp only [List.length_append, List.length_cons, List.length_nil] at hl
          exact cleanImage_ne_nil k₁ h1 (List.length_eq_zero.mp (by omega))
        · rw [fullOf_of_not_fix k₁ h1 hd1 hs1, fullOf_of_not_fix k₂ h2 hd2 hs2] at heq
          have hdl := congrArg List.dropLast heq
          rwa [List.dropLast_concat, List.dropLast_concat] at hdl

theorem mkDirEntry_inj (now : Nat) (k₁ k₂ : Str) (h1 : cleanImage k₁) (h2 : cleanImage k₂)
    (heq : mkDirEntry now k₁ = mkDirEntry now k₂) : k₁ = k₂ := by
  have hn : ('.' :: fullOf k₁ : Str) = '.' :: fullOf k₂ := congrArg TarEntry.name heq
  exact fullOf_inj k₁ k₂ h1 h2 (List.cons_injective hn)

theorem mkDirEntry_ne_mkFileEntry (now now2 : Nat) (k : Str) (l : Leaf) :
    mkDirEntry now k ≠ mkFileEntry now2 l := by
  intro heq
  have := congrArg TarEntry.typeflag heq
  simp [mkDirEntry, mkFileEntry] at this

theorem singleton_get?_some {α : Type} (a x : α) (i : Nat)
    (h : ([a] : List α).get? i = some x) : i = 0 ∧ x = a := by
  cases i with
  | zero =>
    simp only [List.get?_cons_zero, Option.some.injEq] at h
    exact ⟨rfl, h.symm⟩
  | succ n => simp at h

/-- `addTarDir` emits, root-first, exactly the directory keys `ks` it
registers: a nodup subset of the ancestor chain of `name` disjoint from
`dirs`, whose registration keeps `dirs` chain-closed, covers the whole
chain, and whose emission order puts every ancestor of an emitted key at
or before that key (or already in `dirs`). -/
theorem addTarDir_spec (now : Nat) (name : Str) (dirs : List Str)
    (hclosed : ∀ k ∈ dirs, ∀ d ∈ dirChain k, d ∈ dirs) :
    ∃ ks : List Str,
      (addTarDir now name dirs).1 = ks.map (mkDirEntry now) ∧
      (addTarDir now name dirs).2 = ks.reverse ++ dirs ∧
      ks.Nodup ∧
      (∀ x ∈ ks, x ∉ dirs) ∧
      (∀ x ∈ ks, x ∈ dirChain name) ∧
      (∀ d ∈ dirChain name, d ∈ ks.reverse ++ dirs) ∧
      (∀ k2 ∈ ks.reverse ++ dirs, ∀ d ∈ dirChain k2, d ∈ ks.reverse ++ dirs) ∧
      (∀ i ki, ks.get? i = some ki → ∀ d ∈ dirChain ki,
        d ∈ dirs ∨ ∃ j, j ≤ i ∧ ks.get? j = some d) := by
  by_cases h0 : name ∈ dirs
  · have ha : addTarDir now name dirs = ([], dirs) := by
      rw [addTarDir, if_pos h0]
    refine ⟨[], ?_, ?_, ?_, ?_, ?_, ?_, ?_, ?_⟩
    · rw [ha]; rfl
    · rw [ha]; rfl
    · exact List.nodup_nil
    · intro x hx; simp at hx
    · intro x hx; simp at hx
    · intro d hd
      simp only [List.reverse_nil, List.nil_append]
      exact hclosed name h0 d hd
    · intro k2 hk2 d hd
      simp only [List.reverse_nil, List.nil_append] at hk2 ⊢
      exact hclosed k2 hk2 d hd
    · intro i ki hki; simp at hki
  · by_cases hfix : name = ['/'] ∨ name = dir name
    · have ha : addTarDir now name dirs = ([mkDirEntry now name], name :: dirs) := by
        rw [addTarDir, if_neg h0, dif_pos hfix]
      have hchain : dirChain name = [name] := dirChain_single name (hfix.imp id Eq.symm)
      refine ⟨[name], ?_, ?_, ?_, ?_, ?_, ?_, ?_, ?_⟩
      · rw [ha]; rfl
      · rw [ha]; rfl
      · simp
      · intro x hx
        simp only [List.mem_singleton] at hx
        rw [hx]; exact h0
      · intro x hx
        simp only [List.mem_singleton] at hx
        rw [hx]; exact self_mem_dirChain name
      · intro d hd
        rw [hchain] at hd
        simp only [List.mem_singleton] at hd
        rw [hd]
        simp
      · intro k2 hk2 d hd
        simp only [List.reverse_singleton, List.singleton_append, List.mem_cons] at hk2 ⊢
        rcases hk2 with rfl | hk2
        · rw [hchain] at hd
          simp only [List.mem_singleton] at hd
          exact Or.inl hd
        · exact Or.inr (hclosed k2 hk2 d hd)
      · intro i ki hki d hd
        obtain ⟨rfl, rfl⟩ := singleton_get?_some name ki i hki
        rw [hchain] at hd
        simp only [List.mem_singleton] at hd
        exact Or.inr ⟨0, le_refl 0, by rw [hd]; rfl⟩
    · have hne1 : name ≠ ['/'] := fun hh => hfix (Or.inl hh)
      have hne2 : name ≠ dir name := fun hh => hfix (Or.inr hh)
      have hchain : dirChain name = name :: dirChain (dir name) :=
        dirChain_cons name (fun hh => hfix (hh.imp id Eq.symm))
      by_cases hd : dir name ∈ dirs
      · have ha : addTarDir now name dirs = ([mkDirEntry now name], name :: dirs) := by
          rw [addTarDir, if_neg h0, dif_neg hfix, if_pos hd]
          rfl
        refine ⟨[name], ?_, ?_, ?_, ?_, ?_, ?_, ?_, ?_⟩
        · rw [ha]; rfl
        · rw [ha]; rfl
        · simp
        · intro x hx
          simp only [List.mem_singleton] at hx
          rw [hx]; exact h0
        · intro x hx
          simp only [List.mem_singleton] at hx
          rw [hx]; exact self_mem_dirChain name
        · intro d hd2
          rw [hchain] at hd2
          simp only [List.reverse_singleton, List.singleton_append, List.mem_cons] at hd2 ⊢
          rcases hd2 with rfl | hd2
          · exact Or.inl rfl
          · exact Or.inr (hclosed (dir name) hd d hd2)
        · intro k2 hk2 d hd2
          simp only [List.reverse_singleton, List.singleton_append, List.mem_cons] at hk2 ⊢
          rcases hk2 with rfl | hk2
          · rw [hchain] at hd2
            rcases List.mem_cons.mp hd2 with rfl | hd3
            · exact Or.inl rfl
            · exact Or.inr (hclosed (dir k2) hd d hd3)
          · exact Or.inr (hclosed k2 hk2 d hd2)
        · intro i ki hki d hd2
          obtain ⟨rfl, rfl⟩ := singleton_get?_some name ki i hki
          rw [hchain] at hd2
          rcases List.mem_cons.mp hd2 with rfl | hd3
          · exact Or.inr ⟨0, le_refl 0, rfl⟩
          · exact Or.inl (hclosed (dir ki) hd d hd3)
      · obtain ⟨ksp, hr1, hr2, hr3, hr4, hr5, hr6, hr7, hr8⟩ :=
          addTarDir_spec now (dir name) dirs hclosed
        have ha : addTarDir now name dirs
            = ((addTarDir now (dir name) dirs).1 ++ [mkDirEntry now name],
               name :: (addTarDir now (dir name) dirs).2) := by
          rw [addTarDir, if_neg h0, dif_neg hfix, if_neg hd]
        have hnick : name ∉ dirChain (dir name) := by
          intro hmem
          have hle := dirChain_pm_le (dir name) name hmem
          have hlt := pm_lt_dir name hne1 (Ne.symm hne2)
          omega
        have hrevq : ((ksp ++ [name]).reverse ++ dirs : List Str)
            = name :: (ksp.reverse ++ dirs) := by simp
        refine ⟨ksp ++ [name], ?_, ?_, ?_, ?_, ?_, ?_, ?_, ?_⟩
        · rw [ha, hr1, List.map_append]
          rfl
        · rw [ha, hr2, hrevq]
        · rw [List.nodup_append]
          refine ⟨hr3, by simp, ?_⟩
          intro a ha1 ha2
          simp only [List.mem_singleton] at ha2
          rw [ha2] at ha1
          exact hnick (hr5 name ha1)
        · intro x hx
          rcases List.mem_append.mp hx with hx2 | hx2
          · exact hr4 x hx2
          · simp only [List.mem_singleton] at hx2
            rw [hx2]; exact h0
        · intro x hx
          rw [hchain]
          rcases List.mem_append.mp hx with hx2 | hx2
          · exact List.mem_cons_of_mem name (hr5 x hx2)
          · simp only [List.mem_singleton] at hx2
            rw [hx2]; exact List.mem_cons_self _ _
        · intro d hd2
          rw [hrevq]
          rw [hchain] at hd2
          rcases List.mem_cons.mp hd2 with rfl | hd3
          · exact List.mem_cons_self _ _
          · exact List.mem_cons_of_mem name (hr6 d hd3)
        · intro k2 hk2 d hd2
          rw [hrevq] at hk2 ⊢
          rcases List.mem_cons.mp hk2 with rfl | hk3
          · rw [hchain] at hd2
            rcases List.mem_cons.mp hd2 with rfl | hd3
            · exact List.mem_cons_self _ _
            · exact List.mem_cons_of_mem k2 (hr6 d hd3)
          · exact List.mem_cons_of_mem name (hr7 k2 hk3 d hd2)
        · intro i ki hki d hd2
          by_cases hi : i < ksp.length
          · rw [List.get?_append hi] at hki
            rcases hr8 i ki hki d hd2 with hleft | ⟨j, hj, hjeq⟩
            · exact Or.inl hleft
            · refine Or.inr ⟨j, hj, ?_⟩
              rw [List.get?_append (lt_of_le_of_lt hj hi)]
              exact hjeq
          · have hge : ksp.length ≤ i := Nat.le_of_not_lt hi
            rw [List.get?_append_right hge] at hki
            obtain ⟨hz, rfl⟩ := singleton_get?_some name ki (i - ksp.length) hki
            have hieq : i = ksp.length := by omega
            rw [hchain] at hd2
            rcases List.mem_cons.mp hd2 with rfl | hd3
            · refine Or.inr ⟨i, le_refl i, ?_⟩
              rw [hieq]
              exact List.get?_concat_length ksp d
            · have hmem := hr6 d hd3
              rcases List.mem_append.mp hmem with hm2 | hm2
              · obtain ⟨j, hjeq⟩ := List.get?_of_mem (List.mem_reverse.mp hm2)
                have hjlt : j < ksp.length := by
                  obtain ⟨hlt, _⟩ := List.get?_eq_some.mp hjeq
                  exact hlt
                refine Or.inr ⟨j, by omega, ?_⟩
                rw [List.get?_append hjlt]
                exact hjeq
              · exact Or.inl hm2
termination_by pm name
decreasing_by
  exact pm_lt_dir name hne1 (Ne.symm hne2)

/-- Is the tar entry a directory entry? -/
def isDirE (e : TarEntry) : Bool := e.typeflag == TarType.dir

/-- Invariant of the `createDataTarball` fold: the emitted directory
entries are exactly the registered keys in emission order; the keys are
distinct clean paths, chain-closed, each with an entry in the stream; and
every directory entry in the stream is preceded by entries for all its
proper ancestors. -/
def DirInv (now : Nat) (st : DState) : Prop :=
  st.entries.filter isDirE = st.dirs.reverse.map (mkDirEntry now) ∧
  st.dirs.Nodup ∧
  (∀ x ∈ st.dirs, cleanImage x) ∧
  (∀ k ∈ st.dirs, ∀ d ∈ dirChain k, d ∈ st.dirs) ∧
  (∀ k ∈ st.dirs, ∃ i, st.entries.get? i = some (mkDirEntry now k)) ∧
  (∀ j k, cleanImage k → st.entries.get? j = some (mkDirEntry now k) →
    ∀ d ∈ dirChain k, d ≠ k → ∃ i, i < j ∧ st.entries.get? i = some (mkDirEntry now d))

/-- The stream has the file entry of `l` somewhere, with every ancestor
directory's entry strictly earlier. -/
def Pfile (now : Nat) (es : List TarEntry) (l : Leaf) : Prop :=
  ∃ j, es.get? j = some (mkFileEntry now l) ∧
    ∀ d ∈ dirChain (dir l.name), ∃ i, i < j ∧ es.get? i = some (mkDirEntry now d)

theorem get?_some_append {α : Type} (l ts : List α) (i : Nat) (x : α)
    (h : l.get? i = some x) : (l ++ ts).get? i = some x := by
  obtain ⟨hlt, _⟩ := List.get?_eq_some.mp h
  rw [List.get?_append hlt]
  exact h

theorem Pfile_mono (now : Nat) (es ts : List TarEntry) (l : Leaf) (h : Pfile now es l) :
    Pfile now (es ++ ts) l := by
  obtain ⟨j, hj, hanc⟩ := h
  refine ⟨j, get?_some_append _ _ _ _ hj, ?_⟩
  intro d hd
  obtain ⟨i, hi, hie⟩ := hanc d hd
  exact ⟨i, hi, get?_some_append _ _ _ _ hie⟩

theorem get?_entry_at (es : List TarEntry) (ks : List Str) (fe : TarEntry) (now : Nat)
    (j : Nat) (k : Str) (hj : ks.get? j = some k) :
    ((es ++ ks.map (mkDirEntry now)) ++ [fe]).get? (es.length + j)
      = some (mkDirEntry now k) := by
  obtain ⟨hjlt, _⟩ := List.get?_eq_some.mp hj
  rw [List.get?_append (by rw [List.length_append, List.length_map]; omega)]
  rw [List.get?_append_right (Nat.le_add_right _ _)]
  simp only [Nat.add_sub_cancel_left]
  rw [List.get?_map, hj]
  rfl

theorem dataStep_spec (now : Nat) (md5hex : List Nat → Str) (st : DState) (l : Leaf)
    (hinv : DirInv now st) :
    DirInv now (dataStep now md5hex st l) ∧
    Pfile now (dataStep now md5hex st l).entries l ∧
    (∀ l2, Pfile now st.entries l2 → Pfile now (dataStep now md5hex st l).entries l2) := by
  obtain ⟨hI1, hI2, hI3, hI4, hI5, hI6⟩ := hinv
  obtain ⟨ks, hk1, hk2, hk3, hk4, hk5, hk6, hk7, hk8⟩ :=
    addTarDir_spec now (dir l.name) st.dirs hI4
  have hE : (dataStep now md5hex st l).entries
      = (st.entries ++ ks.map (mkDirEntry now)) ++ [mkFileEntry now l] := by
    show st.entries ++ (addTarDir now (dir l.name) st.dirs).1 ++ [mkFileEntry now l] = _
    rw [hk1]
  have hD : (dataStep now md5hex st l).dirs = ks.reverse ++ st.dirs := hk2
  have hksclean : ∀ x ∈ ks, cleanImage x := by
    intro x hx
    rcases dirChain_cleanImage (dir l.name) x (hk5 x hx) with rfl | h
    · exact cleanImage_dir l.name
    · exact h
  refine ⟨⟨?_, ?_, ?_, ?_, ?_, ?_⟩, ?_, ?_⟩
  · rw [hE, hD, List.filter_append, List.filter_append, hI1]
    have hfk : (ks.map (mkDirEntry now)).filter isDirE = ks.map (mkDirEntry now) := by
      refine List.filter_eq_self.mpr ?_
      intro e he
      rcases List.mem_map.mp he with ⟨k, _, rfl⟩
      rfl
    have hff : ([mkFileEntry now l] : List TarEntry).filter isDirE = [] := rfl
    rw [hfk, hff, List.append_nil, List.reverse_append, List.reverse_reverse,
      List.map_append]
  · rw [hD, List.nodup_append]
    refine ⟨List.nodup_reverse.mpr hk3, hI2, ?_⟩
    intro a ha1 ha2
    exact hk4 a (List.mem_reverse.mp ha1) ha2
  · rw [hD]
    intro x hx
    rcases List.mem_append.mp hx with hx2 | hx2
    · exact hksclean x (List.mem_reverse.mp hx2)
    · exact hI3 x hx2
  · rw [hD]
    exact hk7
  · rw [hD, hE]
    intro k hk
    rcases List.mem_append.mp hk with hk2m | hk2m
    · obtain ⟨j, hj⟩ := List.get?_of_mem (List.mem_reverse.mp hk2m)
      exact ⟨st.entries.length + j, get?_entry_at _ _ _ _ _ _ hj⟩
    · obtain ⟨i, hie⟩ := hI5 k hk2m
      exact ⟨i, get?_some_append _ _ _ _ (get?_some_append _ _ _ _ hie)⟩
  · rw [hE]
    intro j k hkc hj d hd hdk
    by_cases hj1 : j < st.entries.length
    · rw [List.get?_append (by rw [List.length_append, List.length_map]; omega),
        List.get?_append hj1] at hj
      obtain ⟨i, hi, hie⟩ := hI6 j k hkc hj d hd hdk
      exact ⟨i, hi, get?_some_append _ _ _ _ (get?_some_append _ _ _ _ hie)⟩
    · by_cases hj2 : j < st.entries.length + ks.length
      · rw [List.get?_append (by rw [List.length_append, List.length_map]; omega),
          List.get?_append_right (Nat.le_of_not_lt hj1), List.get?_map] at hj
        cases hks : ks.get? (j - st.entries.length) with
        | none => rw [hks] at hj; simp at hj
        | some kp =>
          rw [hks] at hj
          simp only [Option.map_some', Option.some.injEq] at hj
          have hkpc : cleanImage kp := hksclean kp (List.get?_mem hks)
          have hkk : kp = k := mkDirEntry_inj now kp k hkpc hkc hj
          subst hkk
          rcases hk8 (j - st.entries.length) kp hks d hd with hleft | ⟨j0, hj0le, hj0eq⟩
          · obtain ⟨i, hie⟩ := hI5 d hleft
            obtain ⟨hilt, _⟩ := List.get?_eq_some.mp hie
            refine ⟨i, by omega, ?_⟩
            exact get?_some_append _ _ _ _ (get?_some_append _ _ _ _ hie)
          · have hne : j0 ≠ j - st.entries.length := by
              intro heq
              rw [heq, hks] at hj0eq
              simp only [Option.some.injEq] at hj0eq
              exact hdk hj0eq.symm
            refine ⟨st.entries.length + j0, by omega, ?_⟩
            exact get?_entry_at _ _ _ _ _ _ hj0eq
      · exfalso
        rw [List.get?_append_right (by rw [List.length_append, List.length_map]; omega)]
          at hj
        obtain ⟨_, habs⟩ := singleton_get?_some _ _ _ hj
        exact mkDirEntry_ne_mkFileEntry now now k l habs
  · rw [hE]
    refine ⟨(st.entries ++ ks.map (mkDirEntry now)).length, List.get?_concat_length _ _, ?_⟩
    intro d hd
    rcases List.mem_append.mp (hk6 d hd) with hm | hm
    · obtain ⟨j, hj⟩ := List.get?_of_mem (List.mem_reverse.mp hm)
      obtain ⟨hjlt, _⟩ := List.get?_eq_some.mp hj
      refine ⟨st.entries.length + j, ?_, get?_entry_at _ _ _ _ _ _ hj⟩
      rw [List.length_append, List.length_map]
      omega
    · obtain ⟨i, hie⟩ := hI5 d hm
      obtain ⟨hilt, _⟩ := List.get?_eq_some.mp hie
      refine ⟨i, ?_, get?_some_append _ _ _ _ (get?_some_append _ _ _ _ hie)⟩
      rw [List.length_append]
      omega
  · intro l2 hp
    rw [hE, List.append_assoc]
    exact Pfile_mono now st.entries _ l2 hp

theorem DirInv_init (now : Nat) : DirInv now ⟨[], [], 0, []⟩ := by
  refine ⟨rfl, List.nodup_nil, ?_, ?_, ?_, ?_⟩
  · intro x hx; simp at hx
  · intro k hk; simp at hk
  · intro k hk; simp at hk
  · intro j k _ hj; simp at hj

theorem foldl_dataStep_spec (now : Nat) (md5hex : List Nat → Str) (ls : List Leaf) :
    ∀ st, DirInv now st →
      DirInv now (List.foldl (dataStep now md5hex) st ls) ∧
      (∀ l ∈ ls, Pfile now (List.foldl (dataStep now md5hex) st ls).entries l) ∧
      (∀ l2, Pfile now st.entries l2 →
        Pfile now (List.foldl (dataStep now md5hex) st ls).entries l2) := by
  induction ls with
  | nil =>
    intro st h
    exact ⟨h, by simp, fun l2 hp => hp⟩
  | cons l ls ih =>
    intro st h
    obtain ⟨h1, h2, h3⟩ := dataStep_spec now md5hex st l h
    obtain ⟨g1, g2, g3⟩ := ih (dataStep now md5hex st l) h1
    rw [List.foldl_cons]
    refine ⟨g1, ?_, ?_⟩
    · intro l0 hl0
      rcases List.mem_cons.mp hl0 with rfl | hl0b
      · exact g3 l0 h2
      · exact g2 l0 hl0b
    · intro l2 hp
      exact g3 l2 (h3 l2 hp)

/-- C1: in the serialized data tarball, every packaged file entry is
preceded by a directory entry for each of its ancestor directories
(first conjunct); every directory entry is preceded by the entries of all
its proper ancestors, so a directory entry also precedes every descendant
entry (second conjunct); and no two directory entries of the stream share
a name — each directory is emitted at most once (third conjunct). -/
theorem c1_directory_entries (t : List Leaf) (now : Nat) (md5hex : List Nat → Str) :
    (∀ l ∈ t, ∃ j, (createDataTarball now md5hex t).entries.get? j
          = some (mkFileEntry now l) ∧
        ∀ d ∈ dirChain (dir l.name), ∃ i, i < j ∧
          (createDataTarball now md5hex t).entries.get? i = some (mkDirEntry now d)) ∧
    (∀ j k, cleanImage k →
        (createDataTarball now md5hex t).entries.get? j = some (mkDirEntry now k) →
        ∀ d ∈ dirChain k, d ≠ k → ∃ i, i < j ∧
          (createDataTarball now md5hex t).entries.get? i = some (mkDirEntry now d)) ∧
    (((createDataTarball now md5hex t).entries.filter isDirE).map
        (fun e => e.name)).Nodup := by
  obtain ⟨hinv, hfiles, _⟩ :=
    foldl_dataStep_spec now md5hex (sortLeafs t) ⟨[], [], 0, []⟩ (DirInv_init now)
  obtain ⟨hI1, hI2, hI3, hI4, hI5, hI6⟩ := hinv
  refine ⟨?_, ?_, ?_⟩
  · intro l hl
    exact hfiles l (((perm_sortLeafs t).mem_iff).mpr hl)
  · exact hI6
  · have hI1c : (createDataTarball now md5hex t).entries.filter isDirE
        = (createDataTarball now md5hex t).dirs.reverse.map (mkDirEntry now) := hI1
    rw [hI1c, List.map_map]
    refine List.Nodup.map_on ?_ (List.nodup_reverse.mpr hI2)
    intro x hx y hy hxy
    have hxc : cleanImage x := hI3 x (List.mem_reverse.mp hx)
    have hyc : cleanImage y := hI3 y (List.mem_reverse.mp hy)
    exact fullOf_inj x y hxc hyc (List.cons_injective hxy)

end ShipPkg
